import Mathlib

/-!
Verification of the SPG → SSG reduction core (`spg_to_ssg_reduction.py`):
the precision analyzer `max_denom_and_min_prob`, the alpha derivation
`compute_alphas_for_spg`, and the graph transformer `spg_to_ssg`, shallowly
embedded over exact rationals (the `USE_EXACT_ARITHMETIC` numeric mode; the
floating-point post-conversion of alphas is outside the embedding).

Python dictionaries are modelled as insertion-ordered association lists
(`dupdate` replaces in place, appends fresh keys), Python sets of hashable
values as duplicate-free lists built by `sinsert`, and Python exceptions as
an explicit `Except PyError` result.
-/

namespace SpgReduction

/-- Exceptions a reduction call can produce.  `valueError`, `keyError`,
`indexError` and `zeroDivisionError` mirror the Python builtins that the
source can actually raise.  `emptyGameError` and `missingAlphaError` are the
dedicated error classes named by the specification's error taxonomy; they are
modelled from the spec (no module under analysis defines or raises them) so
that statements can compare the raised error against them. -/
inductive PyError where
  | valueError
  | keyError
  | indexError
  | zeroDivisionError
  | emptyGameError
  | missingAlphaError
deriving DecidableEq

/-- First value bound to key `x`, mirroring a Python `dict` lookup. -/
def dlookup {α β : Type} [DecidableEq α] : List (α × β) → α → Option β
  | [], _ => none
  | (k, v) :: tl, x => if k = x then some v else dlookup tl x

/-- Python `d[x]`: the bound value, or a `KeyError`. -/
def dget {α β : Type} [DecidableEq α] (d : List (α × β)) (x : α) : Except PyError β :=
  match dlookup d x with
  | some v => .ok v
  | none => .error .keyError

/-- Python `x in d.keys()`. -/
def dmem {α β : Type} [DecidableEq α] (d : List (α × β)) (x : α) : Bool :=
  (dlookup d x).isSome

/-- Python `d[k] = v`: replace in place if the key is present, else append. -/
def dupdate {α β : Type} [DecidableEq α] : List (α × β) → α → β → List (α × β)
  | [], k, v => [(k, v)]
  | (k0, v0) :: tl, k, v => if k0 = k then (k, v) :: tl else (k0, v0) :: dupdate tl k v

/-- Python `d |= nv`: fold the updates of `nv` into `d` in order. -/
def dmerge {α β : Type} [DecidableEq α] (d nv : List (α × β)) : List (α × β) :=
  nv.foldl (fun acc kv => dupdate acc kv.1 kv.2) d

/-- Python `s.add x` on a set modelled as a duplicate-free list. -/
def sinsert {α : Type} [DecidableEq α] (s : List α) (x : α) : List α :=
  if x ∈ s then s else s ++ [x]

/-- Decimal digit character, as produced by Python `str` on naturals. -/
def digitChar : ℕ → Char
  | 0 => '0' | 1 => '1' | 2 => '2' | 3 => '3' | 4 => '4'
  | 5 => '5' | 6 => '6' | 7 => '7' | 8 => '8' | 9 => '9'
  | _ => '*'

/-- Fueled decimal conversion (most significant digit first). -/
def natStrAux : ℕ → ℕ → List Char
  | 0, _ => []
  | fuel + 1, n => if n < 10 then [digitChar n] else natStrAux fuel (n / 10) ++ [digitChar (n % 10)]

/-- Python `str i` for a natural number `i`. -/
def natStr (n : ℕ) : String :=
  ⟨natStrAux (n + 1) n⟩

/-- Continued-fraction loop of CPython `Fraction.limit_denominator`
(`p0, q0, p1, q1 = 0, 1, 1, 0` and then repeatedly
`a = n // d; break if q0 + a*q1 > max_denominator;
p0, q0, p1, q1 = p1, q1, p0 + a*p1, q0 + a*q1; n, d = d, n - a*d`).
The fuel argument strictly exceeds the number of loop iterations whenever it
is at least the starting `d`, since `d` strictly decreases. -/
def limLoop (maxd : ℕ) : ℕ → ℤ → ℤ → ℤ → ℤ → ℤ → ℤ → ℤ × ℤ × ℤ × ℤ
  | 0, _, _, p0, q0, p1, q1 => (p0, q0, p1, q1)
  | fuel + 1, n, d, p0, q0, p1, q1 =>
    let a := Int.fdiv n d
    if (maxd : ℤ) < q0 + a * q1 then (p0, q0, p1, q1)
    else limLoop maxd fuel d (n - a * d) p1 q1 (p0 + a * p1) (q0 + a * q1)

/-- Final candidate selection of CPython `Fraction.limit_denominator` from
the continued-fraction state `(p0, q0, p1, q1)`:
`k = (max_denominator - q0) // q1`, `bound1 = (p0 + k*p1) / (q0 + k*q1)`,
`bound2 = p1 / q1`, returning whichever is closer to `x` (ties prefer
`bound2`). -/
def limPick (x : ℚ) (maxd : ℕ) (t : ℤ × ℤ × ℤ × ℤ) : ℚ :=
  let k := Int.fdiv ((maxd : ℤ) - t.2.1) t.2.2.2
  let bound1 : ℚ := ((t.1 + k * t.2.2.1 : ℤ) : ℚ) / ((t.2.1 + k * t.2.2.2 : ℤ) : ℚ)
  let bound2 : ℚ := ((t.2.2.1 : ℤ) : ℚ) / ((t.2.2.2 : ℤ) : ℚ)
  if |bound2 - x| ≤ |bound1 - x| then bound2 else bound1

/-- Value computed by CPython `Fraction.limit_denominator(maxd)` on `x`
when `maxd ≥ 1`: `x` itself if its denominator is small enough, otherwise the
closer of the two candidate best approximations built from the
continued-fraction state. -/
def limdenV (x : ℚ) (maxd : ℕ) : ℚ :=
  if x.den ≤ maxd then x
  else limPick x maxd (limLoop maxd x.den x.num (x.den : ℤ) 0 1 1 0)

/-- CPython `Fraction(x).limit_denominator(maxd)`: raises `ValueError` when
`maxd < 1`, otherwise returns `limdenV x maxd`. -/
def limit_denominator (x : ℚ) (maxd : ℕ) : Except PyError ℚ :=
  if maxd < 1 then .error .valueError else .ok (limdenV x maxd)

/-- Vertex of a stochastic parity game: unique name, owner flag
(`is_eve`), non-negative integer priority. -/
structure SpgVertex where
  name : String
  is_eve : Bool
  priority : ℕ
deriving DecidableEq

/-- Transition of an SPG: source vertex, action label, and a distribution
over destination vertices, modelled as the list of `(probability, vertex)`
pairs of the Python set. -/
structure SpgTransition where
  start_vertex : SpgVertex
  action : String
  end_vertices : List (ℚ × SpgVertex)
deriving DecidableEq

/-- Stochastic parity game: vertex collection (the values of the Python
name-keyed dict, in insertion order), transition collection (likewise), and
the designated initial vertex. -/
structure StochasticParityGame where
  vertices : List SpgVertex
  transitions : List SpgTransition
  init_vertex : SpgVertex
deriving DecidableEq

/-- Vertex of a simple stochastic game: name, owner flag, target flag. -/
structure SsgVertex where
  name : String
  is_eve : Bool
  is_target : Bool
deriving DecidableEq

/-- Transition of an SSG, structurally identical to `SpgTransition`. -/
structure SsgTransition where
  start_vertex : SsgVertex
  end_vertices : List (ℚ × SsgVertex)
  action : String
deriving DecidableEq

/-- Simple stochastic game, with its vertex dict (keyed by name) and its
transition dict (keyed by source vertex and action). -/
structure SimpleStochasticGame where
  vertices : List (String × SsgVertex)
  transitions : List ((SsgVertex × String) × SsgTransition)
  init_vertex : SsgVertex
deriving DecidableEq

/-- Well-formedness of an SPG input, from the data-model contract of the
specification: vertex names are unique, the initial vertex belongs to the
collection, and every transition starts in the collection and carries a
nonempty duplicate-free distribution over collection vertices whose
probabilities lie in `(0, 1]` and sum to exactly `1`. -/
def SpgWf (spg : StochasticParityGame) : Prop :=
  (spg.vertices.map (fun v => v.name)).Nodup ∧
  spg.init_vertex ∈ spg.vertices ∧
  ∀ t ∈ spg.transitions,
    t.start_vertex ∈ spg.vertices ∧
    t.end_vertices ≠ [] ∧
    t.end_vertices.Nodup ∧
    (t.end_vertices.map (fun pv => pv.1)).sum = 1 ∧
    ∀ pv ∈ t.end_vertices, pv.2 ∈ spg.vertices ∧ 0 < pv.1 ∧ pv.1 ≤ 1

instance (spg : StochasticParityGame) : Decidable (SpgWf spg) := by
  unfold SpgWf; infer_instance

/-- Lines 21-24 of the source: the set `floats` of all probability values
occurring in any transition's distribution. -/
def allProbsSet (spg : StochasticParityGame) : List ℚ :=
  spg.transitions.foldl (fun s t => t.end_vertices.foldl (fun s2 pv => sinsert s2 pv.1) s) []

/-- Python `min` over a nonempty list given as head and tail. -/
def listMinQ (x : ℚ) (l : List ℚ) : ℚ := l.foldl min x

/-- Python `max` over a nonempty list given as head and tail. -/
def listMaxN (x : ℕ) (l : List ℕ) : ℕ := l.foldl max x

/-- Lines 10-26 of the source, `max_denom_and_min_prob`: collect the set of
probability values, round each to `limit_denominator maxd`, and return the
minimum probability paired with the maximum denominator of the rounded
values.  `min` (respectively the rounding) raises `ValueError` on an SPG
without probabilities (respectively when `maxd < 1`). -/
def max_denom_and_min_prob (spg : StochasticParityGame) (maxd : ℕ) : Except PyError (ℚ × ℕ) := do
  let floats := allProbsSet spg
  let fractions ← floats.mapM (fun f => limit_denominator f maxd)
  match floats, fractions with
  | f :: ftl, fr :: frtl => .ok (listMinQ f ftl, listMaxN fr.den (frtl.map (fun q => q.den)))
  | _, _ => .error .valueError

/-- Line 45 of the source: `sorted({v.priority for v in spg.vertices.values()})`. -/
def usedPriorities (spg : StochasticParityGame) : List ℕ :=
  List.insertionSort (· ≤ ·) (spg.vertices.foldl (fun s v => sinsert s v.priority) [])

/-- Python `/` on exact rationals: `ZeroDivisionError` on a zero divisor. -/
def pydivQ (a b : ℚ) : Except PyError ℚ :=
  if b = 0 then .error .zeroDivisionError else .ok (a / b)

/-- Lines 57-59 (and identically 67-69) of the source: walk
`zip(used, used[1:])` and set `alphas[next_k] = alphas[prev_k] * ratio`;
the per-step `gap = next_k - prev_k` is computed but never used. -/
def alphaChainLoop (ratio : ℚ) : List (ℕ × ℕ) → List (ℕ × ℚ) → Except PyError (List (ℕ × ℚ))
  | [], alphas => .ok alphas
  | (prev_k, next_k) :: tl, alphas => do
    let _gap : ℤ := (next_k : ℤ) - (prev_k : ℤ)
    let aprev ← dget alphas prev_k
    alphaChainLoop ratio tl (dupdate alphas next_k (aprev * ratio))

/-- Lines 29-72 of the source, `compute_alphas_for_spg`, in the exact
arithmetic mode (the floating-point post-conversion of line 71 is outside
the embedding).  Sound mode when `epsilon` is `none`, epsilon mode
otherwise; the divisors of the epsilon mode go through `pydivQ` because they
can vanish for out-of-range epsilon values. -/
def compute_alphas_for_spg (spg : StochasticParityGame) (epsilon : Option ℚ) (maxd : ℕ) :
    Except PyError (List (ℕ × ℚ)) := do
  let dm ← max_denom_and_min_prob spg maxd
  let delta_min_float := dm.1
  let max_denominator_M := dm.2
  let n_states := spg.vertices.length
  let used := usedPriorities spg
  let delta_min ← limit_denominator delta_min_float maxd
  let one_minus : ℚ := 1 - delta_min
  match epsilon with
  | none =>
    let numerator := delta_min ^ n_states
    let denominator : ℚ :=
      8 * (Nat.factorial n_states : ℚ) ^ 2 * (max_denominator_M : ℚ) ^ (2 * n_states * n_states)
    let alpha0 := numerator / denominator
    let ratio_bound := (one_minus * delta_min ^ n_states) / (denominator + 1)
    match used with
    | [] => .error .indexError
    | u0 :: _ => alphaChainLoop ratio_bound (used.zip used.tail) (dupdate [] u0 alpha0)
  | some eps =>
    let numerator := 4 * eps * delta_min ^ n_states
    let denominator := (4 - eps) * 8
    let alpha0 ← pydivQ numerator denominator
    let q ← pydivQ (8 * (4 - eps)) (4 * eps)
    let ratio_bound ← pydivQ (one_minus * delta_min ^ n_states) (q + 1)
    match used with
    | [] => .error .indexError
    | u0 :: _ => alphaChainLoop ratio_bound (used.zip used.tail) (dupdate [] u0 alpha0)

/-- Decision vertex created for an SPG vertex on line 98 of the source. -/
def decVertex (v : SpgVertex) : SsgVertex :=
  ⟨v.name, v.is_eve, false⟩

/-- Lines 97-99 of the source: create one decision vertex per SPG vertex and
record the correspondence (`respective_spg_ssg_vertixes[v] = vertices[v.name]`
reads back the binding just written). -/
def decisionLoop : List SpgVertex → List (String × SsgVertex) → List (SpgVertex × SsgVertex) →
    Except PyError (List (String × SsgVertex) × List (SpgVertex × SsgVertex))
  | [], d, r => .ok (d, r)
  | v :: tl, d, r => do
    let d2 := dupdate d v.name (decVertex v)
    let vert ← dget d2 v.name
    decisionLoop tl d2 (dupdate r v vert)

/-- Lines 108-110 (and 117-119, 124-126) of the source: smallest `i` from
`start` upward such that `base ++ str i` is not a key; fueled, with enough
fuel supplied at every call site. -/
def freshIdx (d : List (String × SsgVertex)) (base : String) : ℕ → ℕ → ℕ
  | 0, i => i
  | fuel + 1, i => if dmem d (base ++ natStr i) then freshIdx d base fuel (i + 1) else i

/-- Disambiguation marker appended to a vertex name (a single apostrophe). -/
def primeMark : String := "\x27"

/-- Lines 103-112 of the source: create one intermediate vertex per SPG
vertex, owner flipped, named `v.name + "'"` if that key is free in the
original vertex dict and `v.name + "'" + str i` for the smallest free `i`
otherwise; keys are checked against the original dict only, never against
the accumulating `new_vertices`. -/
def intermediateLoop (vertices0 : List (String × SsgVertex)) :
    List SpgVertex → List (String × SsgVertex) → List (SsgVertex × SsgVertex) →
    Except PyError (List (String × SsgVertex) × List (SsgVertex × SsgVertex))
  | [], nv, ri => .ok (nv, ri)
  | v :: tl, nv, ri => do
    if dmem vertices0 (v.name ++ primeMark) then
      let i := freshIdx vertices0 (v.name ++ primeMark) (vertices0.length + 1) 0
      let newV : SsgVertex := ⟨v.name ++ primeMark ++ natStr i, !v.is_eve, false⟩
      let dv ← dget vertices0 v.name
      intermediateLoop vertices0 tl (dupdate nv (v.name ++ primeMark ++ natStr i) newV)
        (dupdate ri dv newV)
    else
      let newV : SsgVertex := ⟨v.name ++ primeMark, !v.is_eve, false⟩
      let dv ← dget vertices0 v.name
      intermediateLoop vertices0 tl (dupdate nv (v.name ++ primeMark) newV) (dupdate ri dv newV)

/-- Lines 114-120 of the source: add the WIN sink under the key `"v_win"`,
or `"v_win" + str i` for the smallest free `i` if that key is taken. -/
def addWinSink (d : List (String × SsgVertex)) : List (String × SsgVertex) :=
  if dmem d "v_win" then
    let i := freshIdx d "v_win" (d.length + 1) 0
    dupdate d ("v_win" ++ natStr i) ⟨"v_win" ++ natStr i, true, true⟩
  else dupdate d "v_win" ⟨"v_win", true, true⟩

/-- Lines 121-127 of the source: add the LOSE sink under the key `"v_lose"`,
or `"v_lose" + str i` for the smallest free `i` if that key is taken. -/
def addLoseSink (d : List (String × SsgVertex)) : List (String × SsgVertex) :=
  if dmem d "v_lose" then
    let i := freshIdx d "v_lose" (d.length + 1) 0
    dupdate d ("v_lose" ++ natStr i) ⟨"v_lose" ++ natStr i, false, false⟩
  else dupdate d "v_lose" ⟨"v_lose", false, false⟩

/-- Lines 132-134 of the source: rebuild a distribution, redirecting every
branch to the intermediate vertex of its destination. -/
def endLoop (vertices : List (String × SsgVertex)) (ri : List (SsgVertex × SsgVertex)) :
    List (ℚ × SpgVertex) → List (ℚ × SsgVertex) → Except PyError (List (ℚ × SsgVertex))
  | [], acc => .ok acc
  | (p, ev) :: tl, acc => do
    let dv ← dget vertices ev.name
    let iv ← dget ri dv
    endLoop vertices ri tl (sinsert acc (p, iv))

/-- Lines 129-135 of the source: copy every original transition, started at
the decision vertex of its source and redirected to intermediate vertices. -/
def copyLoop (vertices : List (String × SsgVertex)) (ri : List (SsgVertex × SsgVertex)) :
    List SpgTransition → List ((SsgVertex × String) × SsgTransition) →
    Except PyError (List ((SsgVertex × String) × SsgTransition))
  | [], ts => .ok ts
  | t :: tl, ts => do
    let start_v ← dget vertices t.start_vertex.name
    let end_vs ← endLoop vertices ri t.end_vertices []
    copyLoop vertices ri tl (dupdate ts (start_v, t.action) ⟨start_v, end_vs, t.action⟩)

/-- Lines 137-141 of the source: for every SPG vertex add the synthetic
`"alpha"` transition from its intermediate vertex, branching with probability
`alphas[priority]` to the value of `vertices["v_win"]` (even priority) or
`vertices["v_lose"]` (odd priority) and with the complementary probability
back to the decision vertex; the two branches form a Python set literal. -/
def alphaTransLoop (vertices : List (String × SsgVertex)) (rsv : List (SpgVertex × SsgVertex))
    (ri : List (SsgVertex × SsgVertex)) (alphas : List (ℕ × ℚ)) :
    List SpgVertex → List ((SsgVertex × String) × SsgTransition) →
    Except PyError (List ((SsgVertex × String) × SsgTransition))
  | [], ts => .ok ts
  | v :: tl, ts => do
    let dv ← dget rsv v
    let iv ← dget ri dv
    let a ← dget alphas v.priority
    if v.priority % 2 = 0 then
      let wv ← dget vertices "v_win"
      let backv ← dget vertices dv.name
      alphaTransLoop vertices rsv ri alphas tl
        (dupdate ts (iv, "alpha") ⟨iv, sinsert (sinsert [] (a, wv)) (1 - a, backv), "alpha"⟩)
    else
      let lv ← dget vertices "v_lose"
      let backv ← dget vertices dv.name
      alphaTransLoop vertices rsv ri alphas tl
        (dupdate ts (iv, "alpha") ⟨iv, sinsert (sinsert [] (a, lv)) (1 - a, backv), "alpha"⟩)

/-- Lines 92-142 of the source: the graph transformer proper, taking the
alpha map as an input (the body of `spg_to_ssg` after the alphas have been
computed). -/
def spg_to_ssg_given_alphas (spg : StochasticParityGame) (alphas : List (ℕ × ℚ)) :
    Except PyError SimpleStochasticGame := do
  let s1 ← decisionLoop spg.vertices [] []
  let vertices0 := s1.1
  let rsv := s1.2
  let initial_vertex ← dget vertices0 spg.init_vertex.name
  let s2 ← intermediateLoop vertices0 spg.vertices [] []
  let vertices1 := dmerge vertices0 s2.1
  let ri := s2.2
  let vertices2 := addWinSink vertices1
  let vertices3 := addLoseSink vertices2
  let ts1 ← copyLoop vertices3 ri spg.transitions []
  let ts2 ← alphaTransLoop vertices3 rsv ri alphas spg.vertices ts1
  .ok ⟨vertices3, ts2, initial_vertex⟩

/-- Lines 75-142 of the source, `spg_to_ssg`: compute the alphas for the
same SPG (with the default denominator cap 10000) and transform. -/
def spg_to_ssg (spg : StochasticParityGame) (epsilon : Option ℚ) :
    Except PyError SimpleStochasticGame := do
  let alphas ← compute_alphas_for_spg spg epsilon 10000
  spg_to_ssg_given_alphas spg alphas

deriving instance DecidableEq for Except

/-- Invariant of the continued-fraction state `(p0, q0, p1, q1)`: numerators
nonnegative and bounded by their denominators, denominators between `1` and
the cap. -/
def LimInvT (maxd : ℕ) (t : ℤ × ℤ × ℤ × ℤ) : Prop :=
  0 ≤ t.1 ∧ t.1 ≤ t.2.1 ∧ 0 ≤ t.2.2.1 ∧ t.2.2.1 ≤ t.2.2.2 ∧
  1 ≤ t.2.1 ∧ 1 ≤ t.2.2.2 ∧ t.2.1 ≤ (maxd : ℤ) ∧ t.2.2.2 ≤ (maxd : ℤ)

/-- Geometric tail of the alpha map: starting after value `a`, each listed
priority is bound to the previous value times the ratio. -/
def geomFrom (ratio : ℚ) : ℚ → List ℕ → List (ℕ × ℚ)
  | _, [] => []
  | a, q :: tl => (q, a * ratio) :: geomFrom ratio (a * ratio) tl

/-- Sound-mode denominator `8 * (n!)^2 * M^(2*n^2)` (line 51). -/
def soundDenominator (n M : ℕ) : ℚ :=
  8 * (Nat.factorial n : ℚ) ^ 2 * (M : ℚ) ^ (2 * n * n)

/-- Sound-mode `alpha(p0) = d^n / (8 * (n!)^2 * M^(2*n^2))` (lines 50-52). -/
def soundAlpha0 (d : ℚ) (n M : ℕ) : ℚ := d ^ n / soundDenominator n M

/-- Sound-mode ratio `((1-d) * d^n) / (D + 1)` (line 54). -/
def soundRatio (d : ℚ) (n M : ℕ) : ℚ := ((1 - d) * d ^ n) / (soundDenominator n M + 1)

/-- Epsilon-mode `alpha(p0) = (4*e*d^n) / ((4-e)*8)` (lines 61-63). -/
def epsAlpha0 (d : ℚ) (n : ℕ) (e : ℚ) : ℚ := 4 * e * d ^ n / ((4 - e) * 8)

/-- Epsilon-mode ratio `((1-d)*d^n) / ((8*(4-e))/(4*e) + 1)` (line 65). -/
def epsRatio (d : ℚ) (n : ℕ) (e : ℚ) : ℚ :=
  (1 - d) * d ^ n / (8 * (4 - e) / (4 * e) + 1)

/-- Intermediate vertex created for an SPG vertex when its primed name is
free (line 105 of the source). -/
def itmVertex (v : SpgVertex) : SsgVertex :=
  ⟨v.name ++ primeMark, !v.is_eve, false⟩

/-- Decision-vertex dict built by lines 97-99. -/
def decMap (spg : StochasticParityGame) : List (String × SsgVertex) :=
  spg.vertices.map (fun v => (v.name, decVertex v))

/-- Vertex correspondence built by lines 97-99. -/
def rsvMap (spg : StochasticParityGame) : List (SpgVertex × SsgVertex) :=
  spg.vertices.map (fun v => (v, decVertex v))

/-- Context needed by the synthetic-transition loop for one vertex, apart
from the alpha lookup itself. -/
def AlphaCtx (vertices : List (String × SsgVertex)) (rsv : List (SpgVertex × SsgVertex))
    (ri : List (SsgVertex × SsgVertex)) (v : SpgVertex) : Prop :=
  ∃ dv, dlookup rsv v = some dv ∧ (dlookup ri dv).isSome = true ∧
    (dlookup vertices "v_win").isSome = true ∧ (dlookup vertices "v_lose").isSome = true ∧
    (dlookup vertices dv.name).isSome = true

/-- No-collision hypothesis of the structural-size property: no vertex name
is another vertex's name plus the disambiguation marker, and no vertex is
named after either sink. -/
def NoCollision (spg : StochasticParityGame) : Prop :=
  (∀ v ∈ spg.vertices, ∀ w ∈ spg.vertices, v.name ≠ w.name ++ primeMark) ∧
  ∀ v ∈ spg.vertices, v.name ≠ "v_win" ∧ v.name ≠ "v_lose"

instance (spg : StochasticParityGame) : Decidable (NoCollision spg) := by
  unfold NoCollision; infer_instance

/-- Intermediate-vertex dict built by lines 103-112 when no collisions occur. -/
def itmMap (spg : StochasticParityGame) : List (String × SsgVertex) :=
  spg.vertices.map (fun v => (v.name ++ primeMark, itmVertex v))

/-- Correspondence from decision to intermediate vertices, collision-free case. -/
def riMap (spg : StochasticParityGame) : List (SsgVertex × SsgVertex) :=
  spg.vertices.map (fun v => (decVertex v, itmVertex v))

/-! ### Concrete games used as witnesses and failing inputs -/

/-- Well-formed collision-free two-vertex game: an Eve vertex `a` of
priority 0 with a fair coin between `a` and the Adam vertex `b` of
priority 1. -/
def spgW : StochasticParityGame :=
  { vertices := [⟨"a", true, 0⟩, ⟨"b", false, 1⟩],
    transitions := [⟨⟨"a", true, 0⟩, "act",
      [((1 : ℚ)/2, ⟨"a", true, 0⟩), ((1 : ℚ)/2, ⟨"b", false, 1⟩)]⟩],
    init_vertex := ⟨"a", true, 0⟩ }

/-- Well-formed game whose initial vertex is named `"v_win"`, colliding with
the WIN-sink key; both vertices have even priority 0. -/
def spgC3 : StochasticParityGame :=
  { vertices := [⟨"v_win", true, 0⟩, ⟨"b", true, 0⟩],
    transitions := [⟨⟨"v_win", true, 0⟩, "act",
      [((1 : ℚ)/2, ⟨"v_win", true, 0⟩), ((1 : ℚ)/2, ⟨"b", true, 0⟩)]⟩],
    init_vertex := ⟨"v_win", true, 0⟩ }

/-- Game with one vertex and no transitions. -/
def spgEmpty : StochasticParityGame :=
  { vertices := [⟨"b", true, 0⟩], transitions := [], init_vertex := ⟨"b", true, 0⟩ }

def checkC3 (r : Except PyError SimpleStochasticGame) : Bool :=
  match r with
  | .ok ssg =>
      (dlookup ssg.vertices "v_win0" == some ⟨"v_win0", true, true⟩) &&
      ssg.transitions.all fun kv =>
        kv.1.2 != "alpha" || kv.2.end_vertices.all fun pv => pv.2.is_target == false
  | .error _ => false

def checkC4 (r : Except PyError SimpleStochasticGame) : Bool :=
  match r with
  | .ok ssg => ssg.transitions.any fun kv =>
      (kv.2.end_vertices.map fun pv => pv.1).sum == 1/2
  | .error _ => false

/-! ### Association-list dictionary lemmas -/

section DictLemmas

variable {α β : Type} [DecidableEq α]

theorem dlookup_dupdate_self (d : List (α × β)) (k : α) (v : β) :
    dlookup (dupdate d k v) k = some v := by
  induction d with
  | nil => simp [dupdate, dlookup]
  | cons hd tl ih =>
    by_cases h : hd.1 = k
    · simp [dupdate, h, dlookup]
    · simpa [dupdate, h, dlookup] using ih

theorem dlookup_dupdate_ne (d : List (α × β)) (k k2 : α) (v : β) (h : k ≠ k2) :
    dlookup (dupdate d k v) k2 = dlookup d k2 := by
  induction d with
  | nil => simp [dupdate, dlookup, h]
  | cons hd tl ih =>
    by_cases h2 : hd.1 = k
    · simp [dupdate, h2, dlookup, h]
    · simp [dupdate, h2, dlookup, ih]

theorem dupdate_of_lookup_none (d : List (α × β)) (k : α) (v : β)
    (h : dlookup d k = none) : dupdate d k v = d ++ [(k, v)] := by
  induction d with
  | nil => simp [dupdate]
  | cons hd tl ih =>
    by_cases h2 : hd.1 = k
    · simp [dlookup, h2] at h
    · simp [dlookup, h2] at h
      simp [dupdate, h2, ih h]

theorem dlookup_append_left (d d2 : List (α × β)) (k : α) (v : β)
    (h : dlookup d k = some v) : dlookup (d ++ d2) k = some v := by
  induction d with
  | nil => simp [dlookup] at h
  | cons hd tl ih =>
    by_cases h2 : hd.1 = k
    · simp [dlookup, h2] at h ⊢; exact h
    · simp [dlookup, h2] at h ⊢; exact ih h

theorem dlookup_append_right (d d2 : List (α × β)) (k : α)
    (h : dlookup d k = none) : dlookup (d ++ d2) k = dlookup d2 k := by
  induction d with
  | nil => simp [dlookup]
  | cons hd tl ih =>
    by_cases h2 : hd.1 = k
    · simp [dlookup, h2] at h
    · simp [dlookup, h2] at h ⊢; exact ih h

theorem dlookup_isSome_iff (d : List (α × β)) (k : α) :
    (dlookup d k).isSome = true ↔ k ∈ d.map (fun kv => kv.1) := by
  induction d with
  | nil => simp [dlookup]
  | cons hd tl ih =>
    by_cases h2 : hd.1 = k
    · simp [dlookup, h2]
    · simp [dlookup, h2, ih, Ne.symm h2]

theorem dlookup_eq_none_iff (d : List (α × β)) (k : α) :
    dlookup d k = none ↔ k ∉ d.map (fun kv => kv.1) := by
  constructor
  · intro h hmem
    rw [← dlookup_isSome_iff] at hmem
    simp [h] at hmem
  · intro h
    cases hx : dlookup d k with
    | none => rfl
    | some v => exact absurd ((dlookup_isSome_iff d k).mp (by simp [hx])) h

theorem dmem_iff (d : List (α × β)) (k : α) :
    dmem d k = true ↔ k ∈ d.map (fun kv => kv.1) := by
  rw [dmem, dlookup_isSome_iff]

theorem dget_eq_ok_iff (d : List (α × β)) (k : α) (v : β) :
    dget d k = .ok v ↔ dlookup d k = some v := by
  unfold dget
  cases h : dlookup d k with
  | none => simp
  | some w => simp

theorem dget_eq_error_iff (d : List (α × β)) (k : α) (e : PyError) :
    dget d k = .error e ↔ (dlookup d k = none ∧ e = .keyError) := by
  unfold dget
  cases h : dlookup d k with
  | none => simp [eq_comm]
  | some w => simp

theorem dlookup_mem (d : List (α × β)) (k : α) (v : β) (h : dlookup d k = some v) :
    (k, v) ∈ d := by
  induction d with
  | nil => simp [dlookup] at h
  | cons hd tl ih =>
    by_cases h2 : hd.1 = k
    · simp [dlookup, h2] at h
      have : hd = (k, v) := by
        cases hd
        simp_all
      exact this ▸ List.mem_cons_self _ _
    · simp [dlookup, h2] at h
      exact List.mem_cons_of_mem _ (ih h)

theorem length_dupdate_mem (d : List (α × β)) (k : α) (v : β)
    (h : (dlookup d k).isSome = true) : (dupdate d k v).length = d.length := by
  induction d with
  | nil => simp [dlookup] at h
  | cons hd tl ih =>
    by_cases h2 : hd.1 = k
    · simp [dupdate, h2]
    · simp [dlookup, h2] at h
      simp [dupdate, h2, ih h]

omit [DecidableEq α] in
/-- Keys of a dict built by appending fresh bindings. -/
theorem dkeys_append (d d2 : List (α × β)) :
    (d ++ d2).map (fun kv => kv.1) = d.map (fun kv => kv.1) ++ d2.map (fun kv => kv.1) :=
  List.map_append _ d d2

theorem dmerge_fresh (nv : List (α × β)) : ∀ d : List (α × β),
    (∀ kv ∈ nv, dlookup d kv.1 = none) →
    (nv.map (fun kv => kv.1)).Nodup →
    dmerge d nv = d ++ nv := by
  induction nv with
  | nil => intro d _ _; simp [dmerge]
  | cons hd tl ih =>
    intro d hfresh hnd
    have h1 : dlookup d hd.1 = none := hfresh hd (by simp)
    have step : dmerge d (hd :: tl) = dmerge (d ++ [(hd.1, hd.2)]) tl := by
      simp only [dmerge, List.foldl_cons]
      rw [dupdate_of_lookup_none d hd.1 hd.2 h1]
    rw [step, ih (d ++ [(hd.1, hd.2)]) ?fresh ?nd]
    · simp
    case fresh =>
      intro kv hkv
      rw [dlookup_append_right _ _ _ (hfresh kv (List.mem_cons_of_mem _ hkv))]
      simp only [List.map_cons, List.nodup_cons] at hnd
      have hne : hd.1 ≠ kv.1 := by
        intro hc
        exact hnd.1 (hc ▸ List.mem_map_of_mem (fun kv => kv.1) hkv)
      simp [dlookup, hne]
    case nd =>
      simp only [List.map_cons, List.nodup_cons] at hnd
      exact hnd.2

/-- Merging bindings whose keys avoid `d` leaves every lookup in `d` intact. -/
theorem dmerge_lookup_pres (nv : List (α × β)) : ∀ (d : List (α × β)) (k : α),
    (∀ kv ∈ nv, kv.1 ≠ k) → dlookup (dmerge d nv) k = dlookup d k := by
  induction nv with
  | nil => intro d k _; simp [dmerge]
  | cons hd tl ih =>
    intro d k hne
    have step : dmerge d (hd :: tl) = dmerge (dupdate d hd.1 hd.2) tl := by
      simp [dmerge]
    rw [step, ih _ _ (fun kv hkv => hne kv (List.mem_cons_of_mem _ hkv))]
    exact dlookup_dupdate_ne _ _ _ _ (hne hd (by simp))

end DictLemmas

/-! ### Set-as-list and fold lemmas -/

section SetLemmas

variable {α : Type} [DecidableEq α]

theorem mem_sinsert (s : List α) (x y : α) :
    y ∈ sinsert s x ↔ y ∈ s ∨ y = x := by
  unfold sinsert
  by_cases h : x ∈ s
  · simp only [if_pos h]
    constructor
    · exact Or.inl
    · rintro (hy | rfl) <;> [exact hy; exact h]
  · simp [if_neg h]

theorem sinsert_nodup (s : List α) (x : α) (h : s.Nodup) : (sinsert s x).Nodup := by
  unfold sinsert
  by_cases hm : x ∈ s
  · simpa [hm]
  · simp only [if_neg hm]
    simpa [List.nodup_append, h] using hm

theorem foldl_min_le_init (l : List ℚ) : ∀ x : ℚ, l.foldl min x ≤ x := by
  induction l with
  | nil => intro x; simp
  | cons hd tl ih =>
    intro x
    simp only [List.foldl_cons]
    exact le_trans (ih (min x hd)) (min_le_left x hd)

theorem foldl_min_le_mem (l : List ℚ) : ∀ (x : ℚ) (y : ℚ), y ∈ l → l.foldl min x ≤ y := by
  induction l with
  | nil => intro x y hy; simp at hy
  | cons hd tl ih =>
    intro x y hy
    rcases List.mem_cons.mp hy with rfl | hy
    · exact le_trans (foldl_min_le_init tl (min x y)) (min_le_right x y)
    · exact ih (min x hd) y hy

theorem foldl_min_mem (l : List ℚ) : ∀ x : ℚ, l.foldl min x ∈ x :: l := by
  induction l with
  | nil => intro x; simp
  | cons hd tl ih =>
    intro x
    simp only [List.foldl_cons]
    rcases List.mem_cons.mp (ih (min x hd)) with heq | hmem
    · rw [heq]
      rcases min_cases x hd with ⟨hc, _⟩ | ⟨hc, _⟩ <;> rw [hc]
      · exact List.mem_cons_self _ _
      · exact List.mem_cons_of_mem _ (List.mem_cons_self _ _)
    · exact List.mem_cons_of_mem _ (List.mem_cons_of_mem _ hmem)

theorem le_foldl_max_init (l : List ℕ) : ∀ x : ℕ, x ≤ l.foldl max x := by
  induction l with
  | nil => intro x; simp
  | cons hd tl ih =>
    intro x
    simp only [List.foldl_cons]
    exact le_trans (le_max_left x hd) (ih (max x hd))

theorem le_foldl_max_mem (l : List ℕ) : ∀ (x : ℕ) (y : ℕ), y ∈ l → y ≤ l.foldl max x := by
  induction l with
  | nil => intro x y hy; simp at hy
  | cons hd tl ih =>
    intro x y hy
    rcases List.mem_cons.mp hy with rfl | hy
    · exact le_trans (le_max_right x y) (le_foldl_max_init tl (max x y))
    · exact ih (max x hd) y hy

theorem foldl_max_mem (l : List ℕ) : ∀ x : ℕ, l.foldl max x ∈ x :: l := by
  induction l with
  | nil => intro x; simp
  | cons hd tl ih =>
    intro x
    simp only [List.foldl_cons]
    rcases List.mem_cons.mp (ih (max x hd)) with heq | hmem
    · rw [heq]
      rcases max_cases x hd with ⟨hc, _⟩ | ⟨hc, _⟩ <;> rw [hc]
      · exact List.mem_cons_self _ _
      · exact List.mem_cons_of_mem _ (List.mem_cons_self _ _)
    · exact List.mem_cons_of_mem _ (List.mem_cons_of_mem _ hmem)

end SetLemmas

/-! ### Decimal-string lemmas -/

section NatStrLemmas

theorem digitChar_inj (a b : ℕ) (ha : a < 10) (hb : b < 10)
    (h : digitChar a = digitChar b) : a = b := by
  interval_cases a <;> interval_cases b <;> first | rfl | exact absurd h (by decide)

theorem natStrAux_ne_nil (f n : ℕ) (hf : 0 < f) : natStrAux f n ≠ [] := by
  match f, hf with
  | f + 1, _ =>
    unfold natStrAux
    by_cases h : n < 10 <;> simp [h]

theorem natStrAux_inj : ∀ f1 : ℕ, ∀ f2 m n : ℕ, m < 10 ^ f1 → n < 10 ^ f2 →
    natStrAux f1 m = natStrAux f2 n → m = n := by
  intro f1
  induction f1 with
  | zero =>
    intro f2 m n hm hn heq
    interval_cases m
    match f2, hn with
    | 0, hn =>
      interval_cases n
      rfl
    | f2 + 1, hn =>
      exact absurd heq.symm (natStrAux_ne_nil (f2 + 1) n (Nat.succ_pos f2))
  | succ f1 ih =>
    intro f2 m n hm hn heq
    match f2, hn with
    | 0, hn =>
      interval_cases n
      by_cases hm10 : m < 10
      · simp only [natStrAux, if_pos hm10] at heq
        exact absurd heq (by simp)
      · simp only [natStrAux, if_neg hm10] at heq
        exact absurd heq (by simp)
    | f2 + 1, hn =>
      by_cases hm10 : m < 10 <;> by_cases hn10 : n < 10
      · simp only [natStrAux, if_pos hm10, if_pos hn10] at heq
        exact digitChar_inj m n hm10 hn10 (List.singleton_inj.mp heq)
      · simp only [natStrAux, if_pos hm10, if_neg hn10] at heq
        have hf2 : 0 < f2 := by
          rcases Nat.eq_zero_or_pos f2 with rfl | h
          · exfalso; simp at hn; omega
          · exact h
        have hlen := congrArg List.length heq
        rw [List.length_append] at hlen
        simp only [List.length_singleton] at hlen
        have hpos : 0 < (natStrAux f2 (n / 10)).length :=
          List.length_pos.mpr (natStrAux_ne_nil f2 (n / 10) hf2)
        omega
      · simp only [natStrAux, if_neg hm10, if_pos hn10] at heq
        have hf1 : 0 < f1 := by
          rcases Nat.eq_zero_or_pos f1 with rfl | h
          · exfalso; simp at hm; omega
          · exact h
        have hlen := congrArg List.length heq
        rw [List.length_append] at hlen
        simp only [List.length_singleton] at hlen
        have hpos : 0 < (natStrAux f1 (m / 10)).length :=
          List.length_pos.mpr (natStrAux_ne_nil f1 (m / 10) hf1)
        omega
      · simp only [natStrAux, if_neg hm10, if_neg hn10] at heq
        have hlen := congrArg List.length heq
        simp only [List.length_append, List.length_singleton] at hlen
        obtain ⟨heq1, heq2⟩ := List.append_inj heq (by omega)
        have hdiv : m / 10 = n / 10 := by
          refine ih f2 (m / 10) (n / 10) ?_ ?_ heq1
          · rw [Nat.div_lt_iff_lt_mul (by norm_num)]
            calc m < 10 ^ (f1 + 1) := hm
              _ = 10 ^ f1 * 10 := by ring
          · rw [Nat.div_lt_iff_lt_mul (by norm_num)]
            calc n < 10 ^ (f2 + 1) := hn
              _ = 10 ^ f2 * 10 := by ring
        have hmod : m % 10 = n % 10 :=
          digitChar_inj _ _ (Nat.mod_lt m (by norm_num)) (Nat.mod_lt n (by norm_num))
            (List.singleton_inj.mp heq2)
        omega

theorem lt_ten_pow_succ (n : ℕ) : n < 10 ^ (n + 1) := by
  calc n < 2 ^ n := Nat.lt_two_pow n
    _ ≤ 10 ^ n := Nat.pow_le_pow_left (by norm_num) n
    _ ≤ 10 ^ (n + 1) := Nat.pow_le_pow_right (by norm_num) (Nat.le_succ n)

theorem natStr_inj (m n : ℕ) (h : natStr m = natStr n) : m = n := by
  have hdata : natStrAux (m + 1) m = natStrAux (n + 1) n := congrArg String.data h
  exact natStrAux_inj (m + 1) (n + 1) m n (lt_ten_pow_succ m) (lt_ten_pow_succ n) hdata

theorem string_data_append (a b : String) : (a ++ b).data = a.data ++ b.data := rfl

theorem string_append_right_inj (base : String) (s t : String)
    (h : base ++ s = base ++ t) : s = t := by
  have hd : base.data ++ s.data = base.data ++ t.data := congrArg String.data h
  cases s with
  | mk sd =>
    cases t with
    | mk td =>
      simp only at hd
      exact congrArg String.mk (List.append_cancel_left hd)

/-- Appending the prime marker never produces a string ending in a letter. -/
theorem append_prime_ne (s : String) (t : String) (c : Char) (hc : c ≠ '\x27')
    (ht : t.data.getLast? = some c) : s ++ primeMark ≠ t := by
  intro h
  have hd : s.data ++ ['\x27'] = t.data := congrArg String.data h
  rw [← hd, List.getLast?_concat] at ht
  exact hc (Option.some.inj ht).symm

end NatStrLemmas

/-! ### Range of `limit_denominator` -/

section LimdenLemmas


theorem LimInvT_mk (maxd : ℕ) (p0 q0 p1 q1 : ℤ) :
    LimInvT maxd (p0, q0, p1, q1) ↔
      (0 ≤ p0 ∧ p0 ≤ q0 ∧ 0 ≤ p1 ∧ p1 ≤ q1 ∧
       1 ≤ q0 ∧ 1 ≤ q1 ∧ q0 ≤ (maxd : ℤ) ∧ q1 ≤ (maxd : ℤ)) := Iff.rfl

theorem limLoop_succ_eq (maxd fuel : ℕ) (n d p0 q0 p1 q1 : ℤ) :
    limLoop maxd (fuel + 1) n d p0 q0 p1 q1 =
      if (maxd : ℤ) < q0 + Int.fdiv n d * q1 then (p0, q0, p1, q1)
      else limLoop maxd fuel d (n - Int.fdiv n d * d) p1 q1
        (p0 + Int.fdiv n d * p1) (q0 + Int.fdiv n d * q1) := rfl

theorem limLoop_inv (maxd : ℕ) : ∀ (fuel : ℕ) (n d p0 q0 p1 q1 : ℤ),
    LimInvT maxd (p0, q0, p1, q1) → 0 ≤ n → 0 ≤ d →
    LimInvT maxd (limLoop maxd fuel n d p0 q0 p1 q1) := by
  intro fuel
  induction fuel with
  | zero => intro n d p0 q0 p1 q1 hinv _ _; exact hinv
  | succ f ih =>
    intro n d p0 q0 p1 q1 hinv hn hd
    rw [LimInvT_mk] at hinv
    obtain ⟨h1, h2, h3, h4, h5, h6, h7, h8⟩ := hinv
    have ha : 0 ≤ Int.fdiv n d := Int.fdiv_nonneg hn hd
    rw [limLoop_succ_eq]
    by_cases hbr : (maxd : ℤ) < q0 + Int.fdiv n d * q1
    · rw [if_pos hbr]
      exact ⟨h1, h2, h3, h4, h5, h6, h7, h8⟩
    · rw [if_neg hbr]
      push_neg at hbr
      have hd2 : 0 ≤ n - Int.fdiv n d * d := by
        have hid := Int.fmod_add_fdiv n d
        rw [mul_comm d (Int.fdiv n d)] at hid
        have := Int.fmod_nonneg hn hd
        linarith
      refine ih d (n - Int.fdiv n d * d) p1 q1 (p0 + Int.fdiv n d * p1)
        (q0 + Int.fdiv n d * q1)
        ((LimInvT_mk _ _ _ _ _).mpr ⟨h3, h4, ?_, ?_, h6, ?_, h8, hbr⟩) hd hd2
      · exact add_nonneg h1 (mul_nonneg ha h3)
      · exact add_le_add h2 (mul_le_mul_of_nonneg_left h4 ha)
      · have : 0 ≤ Int.fdiv n d * q1 := mul_nonneg ha (le_trans zero_le_one h6)
        linarith

theorem intdiv_unit (a b : ℤ) (h0 : 0 ≤ a) (hab : a ≤ b) (hb : 0 < b) :
    0 ≤ ((a : ℤ) : ℚ) / ((b : ℤ) : ℚ) ∧ ((a : ℤ) : ℚ) / ((b : ℤ) : ℚ) ≤ 1 := by
  have hbq : (0 : ℚ) < (b : ℚ) := by exact_mod_cast hb
  constructor
  · exact div_nonneg (by exact_mod_cast h0) (le_of_lt hbq)
  · rw [div_le_one hbq]
    exact_mod_cast hab

theorem limPick_range (x : ℚ) (maxd : ℕ) (t : ℤ × ℤ × ℤ × ℤ)
    (hinv : LimInvT maxd t) : 0 ≤ limPick x maxd t ∧ limPick x maxd t ≤ 1 := by
  obtain ⟨p0, q0, p1, q1⟩ := t
  rw [LimInvT_mk] at hinv
  obtain ⟨h1, h2, h3, h4, h5, h6, h7, h8⟩ := hinv
  have hk0 : 0 ≤ Int.fdiv ((maxd : ℤ) - q0) q1 :=
    Int.fdiv_nonneg (by linarith) (by linarith)
  have hb2 := intdiv_unit p1 q1 h3 h4 (by linarith)
  have hb1 := intdiv_unit (p0 + Int.fdiv ((maxd : ℤ) - q0) q1 * p1)
    (q0 + Int.fdiv ((maxd : ℤ) - q0) q1 * q1)
    (add_nonneg h1 (mul_nonneg hk0 h3))
    (add_le_add h2 (mul_le_mul_of_nonneg_left h4 hk0))
    (by
      have : 0 ≤ Int.fdiv ((maxd : ℤ) - q0) q1 * q1 := mul_nonneg hk0 (by linarith)
      linarith)
  dsimp only [limPick]
  split
  · exact hb2
  · exact hb1

theorem limPick_special (x : ℚ) (maxd : ℕ) (h1 : 1 ≤ maxd) :
    0 ≤ limPick x maxd (1, 0, 0, 1) ∧ limPick x maxd (1, 0, 0, 1) ≤ 1 := by
  have hb1 := intdiv_unit (1 + ((maxd : ℤ) - 0).fdiv 1 * 0) (0 + ((maxd : ℤ) - 0).fdiv 1 * 1)
    (by simp) (by simp [Int.fdiv_one]; exact_mod_cast h1)
    (by simp [Int.fdiv_one]; exact_mod_cast h1)
  have hb2 := intdiv_unit 0 1 (le_refl 0) zero_le_one zero_lt_one
  dsimp only [limPick]
  split
  · exact hb2
  · exact hb1

theorem num_lt_den_of_lt_one (x : ℚ) (h : x < 1) : x.num < (x.den : ℤ) := by
  have hd : (0 : ℚ) < (x.den : ℚ) := by exact_mod_cast x.pos
  have h2 : (x.num : ℚ) < (x.den : ℚ) := by
    rw [← div_lt_one hd] at *
    rw [Rat.num_div_den]
    exact h
  exact_mod_cast h2

theorem limLoop_two_steps (maxd : ℕ) (h1 : 1 ≤ maxd) (num den : ℤ) (f : ℕ)
    (hnum : 0 < num) (hlt : num < den) :
    limLoop maxd (f + 2) num den 0 1 1 0 =
      if (maxd : ℤ) < Int.fdiv den num then (1, 0, 0, 1)
      else limLoop maxd f num (den - Int.fdiv den num * num) 0 1 1 (Int.fdiv den num) := by
  have hden0 : 0 ≤ den := by linarith
  have ha1 : Int.fdiv num den = 0 := by
    rw [Int.fdiv_eq_ediv _ hden0]
    exact Int.ediv_eq_zero_of_lt (le_of_lt hnum) hlt
  have step1 : limLoop maxd (f + 2) num den 0 1 1 0 = limLoop maxd (f + 1) den num 1 0 0 1 := by
    rw [show f + 2 = (f + 1) + 1 from rfl, limLoop_succ_eq, ha1]
    have hc1 : ¬((maxd : ℤ) < 1 + 0 * 0) := by
      simp only [mul_zero, add_zero]
      exact not_lt.mpr (by exact_mod_cast h1)
    rw [if_neg hc1]
    norm_num
  rw [step1, limLoop_succ_eq]
  by_cases hbr : (maxd : ℤ) < 0 + Int.fdiv den num * 1
  · rw [if_pos hbr, if_pos (by simpa using hbr)]
  · rw [if_neg hbr, if_neg (by simpa using hbr)]
    norm_num

theorem limdenV_range (x : ℚ) (maxd : ℕ) (h1 : 1 ≤ maxd) (h0 : 0 ≤ x) (hx : x ≤ 1) :
    0 ≤ limdenV x maxd ∧ limdenV x maxd ≤ 1 := by
  unfold limdenV
  by_cases hden : x.den ≤ maxd
  · rw [if_pos hden]
    exact ⟨h0, hx⟩
  · rw [if_neg hden]
    push_neg at hden
    have hden2 : 2 ≤ x.den := by omega
    have hxne1 : x ≠ 1 := by
      intro hc
      rw [hc] at hden2
      norm_num at hden2
    have hxne0 : x ≠ 0 := by
      intro hc
      rw [hc] at hden2
      norm_num at hden2
    have hx0 : 0 < x := lt_of_le_of_ne h0 (Ne.symm hxne0)
    have hx1 : x < 1 := lt_of_le_of_ne hx hxne1
    have hnpos : 0 < x.num := Rat.num_pos.mpr hx0
    have hnlt : x.num < (x.den : ℤ) := num_lt_den_of_lt_one x hx1
    obtain ⟨f, hf⟩ : ∃ f, x.den = f + 2 := ⟨x.den - 2, by omega⟩
    have hfuel : limLoop maxd x.den x.num (x.den : ℤ) 0 1 1 0 =
        limLoop maxd (f + 2) x.num (x.den : ℤ) 0 1 1 0 := by
      rw [hf]
    rw [hfuel, limLoop_two_steps maxd h1 x.num (x.den : ℤ) f hnpos hnlt]
    by_cases hbr : (maxd : ℤ) < Int.fdiv (x.den : ℤ) x.num
    · rw [if_pos hbr]
      exact limPick_special x maxd h1
    · rw [if_neg hbr]
      push_neg at hbr
      have ha2 : 1 ≤ Int.fdiv (x.den : ℤ) x.num := by
        rw [Int.fdiv_eq_ediv _ (le_of_lt hnpos), Int.le_ediv_iff_mul_le hnpos]
        linarith
      refine limPick_range x maxd _ (limLoop_inv maxd f x.num _ 0 1 1 _
        ((LimInvT_mk _ _ _ _ _).mpr
          ⟨le_refl 0, zero_le_one, zero_le_one, ha2, le_refl 1, ha2, by exact_mod_cast h1, hbr⟩)
        (le_of_lt hnpos) ?_)
      have hid := Int.fmod_add_fdiv (x.den : ℤ) x.num
      rw [mul_comm x.num (Int.fdiv (x.den : ℤ) x.num)] at hid
      have := Int.fmod_nonneg (show (0:ℤ) ≤ (x.den : ℤ) by positivity) (le_of_lt hnpos)
      linarith

end LimdenLemmas

/-! ### Analyzer lemmas -/

section AnalyzerLemmas

theorem foldl_sinsert_mem_gen {α β : Type} [DecidableEq β] (f : α → β) (l : List α) :
    ∀ (s : List β) (x : β),
      x ∈ l.foldl (fun s2 a => sinsert s2 (f a)) s ↔ x ∈ s ∨ ∃ a ∈ l, f a = x := by
  induction l with
  | nil => intro s x; simp
  | cons hd tl ih =>
    intro s x
    simp only [List.foldl_cons]
    rw [ih, mem_sinsert]
    constructor
    · rintro ((h | rfl) | ⟨a, ha, rfl⟩)
      · exact Or.inl h
      · exact Or.inr ⟨hd, List.mem_cons_self _ _, rfl⟩
      · exact Or.inr ⟨a, List.mem_cons_of_mem _ ha, rfl⟩
    · rintro (h | ⟨a, ha, rfl⟩)
      · exact Or.inl (Or.inl h)
      · rcases List.mem_cons.mp ha with rfl | h2
        · exact Or.inl (Or.inr rfl)
        · exact Or.inr ⟨a, h2, rfl⟩

theorem foldl_sinsert_nodup_gen {α β : Type} [DecidableEq β] (f : α → β) (l : List α) :
    ∀ s : List β, s.Nodup → (l.foldl (fun s2 a => sinsert s2 (f a)) s).Nodup := by
  induction l with
  | nil => intro s hs; exact hs
  | cons hd tl ih =>
    intro s hs
    exact ih (sinsert s (f hd)) (sinsert_nodup s (f hd) hs)

theorem foldl_probs_mem (ts : List SpgTransition) : ∀ (s : List ℚ) (x : ℚ),
    x ∈ ts.foldl (fun s t => t.end_vertices.foldl (fun s2 pv => sinsert s2 pv.1) s) s ↔
      x ∈ s ∨ ∃ t ∈ ts, ∃ pv ∈ t.end_vertices, pv.1 = x := by
  induction ts with
  | nil => intro s x; simp
  | cons hd tl ih =>
    intro s x
    simp only [List.foldl_cons]
    rw [ih, foldl_sinsert_mem_gen (fun pv => pv.1) hd.end_vertices]
    constructor
    · rintro ((h | ⟨pv, hpv, rfl⟩) | ⟨t, ht, hx⟩)
      · exact Or.inl h
      · exact Or.inr ⟨hd, List.mem_cons_self _ _, pv, hpv, rfl⟩
      · exact Or.inr ⟨t, List.mem_cons_of_mem _ ht, hx⟩
    · rintro (h | ⟨t, ht, pv, hpv, hx⟩)
      · exact Or.inl (Or.inl h)
      · rcases List.mem_cons.mp ht with rfl | h2
        · exact Or.inl (Or.inr ⟨pv, hpv, hx⟩)
        · exact Or.inr ⟨t, h2, pv, hpv, hx⟩

theorem mem_allProbsSet (spg : StochasticParityGame) (x : ℚ) :
    x ∈ allProbsSet spg ↔ ∃ t ∈ spg.transitions, ∃ pv ∈ t.end_vertices, pv.1 = x := by
  unfold allProbsSet
  rw [foldl_probs_mem]
  simp

theorem allProbsSet_pos (spg : StochasticParityGame) (hwf : SpgWf spg) :
    ∀ x ∈ allProbsSet spg, 0 < x ∧ x ≤ 1 := by
  intro x hx
  obtain ⟨t, ht, pv, hpv, rfl⟩ := (mem_allProbsSet spg x).mp hx
  obtain ⟨-, -, -, -, hmem⟩ := hwf.2.2 t ht
  exact ⟨(hmem pv hpv).2.1, (hmem pv hpv).2.2⟩

theorem allProbsSet_ne_nil (spg : StochasticParityGame) (hwf : SpgWf spg)
    (hne : spg.transitions ≠ []) : allProbsSet spg ≠ [] := by
  obtain ⟨t, ts, hts⟩ : ∃ t ts, spg.transitions = t :: ts := by
    cases h : spg.transitions with
    | nil => exact absurd h hne
    | cons t ts => exact ⟨t, ts, rfl⟩
  obtain ⟨-, hne2, -, -, -⟩ := hwf.2.2 t (by rw [hts]; exact List.mem_cons_self _ _)
  obtain ⟨pv, pvs, hpv⟩ : ∃ pv pvs, t.end_vertices = pv :: pvs := by
    cases h : t.end_vertices with
    | nil => exact absurd h hne2
    | cons pv pvs => exact ⟨pv, pvs, rfl⟩
  have : pv.1 ∈ allProbsSet spg := by
    rw [mem_allProbsSet]
    exact ⟨t, by rw [hts]; exact List.mem_cons_self _ _, pv,
      by rw [hpv]; exact List.mem_cons_self _ _, rfl⟩
  intro hc
  rw [hc] at this
  exact absurd this (List.not_mem_nil _)

theorem mapM_limden (maxd : ℕ) (h1 : 1 ≤ maxd) (l : List ℚ) :
    l.mapM (fun f => limit_denominator f maxd) = .ok (l.map (fun f => limdenV f maxd)) := by
  induction l with
  | nil => rfl
  | cons hd tl ih =>
    rw [List.mapM_cons, List.map_cons]
    have hhd : limit_denominator hd maxd = .ok (limdenV hd maxd) := by
      unfold limit_denominator
      rw [if_neg (by omega)]
    rw [hhd, ih]
    rfl

/-- Characterization of the analyzer on a game with at least one probability:
it returns the exact minimum of all occurring probabilities and the maximum
denominator of the individually rounded distinct probabilities. -/
theorem max_denom_spec (spg : StochasticParityGame) (maxd : ℕ) (h1 : 1 ≤ maxd)
    (hne : allProbsSet spg ≠ []) :
    ∃ mp M, max_denom_and_min_prob spg maxd = .ok (mp, M) ∧
      mp ∈ allProbsSet spg ∧ (∀ x ∈ allProbsSet spg, mp ≤ x) ∧
      (∀ x ∈ allProbsSet spg, (limdenV x maxd).den ≤ M) ∧
      (∃ x ∈ allProbsSet spg, (limdenV x maxd).den = M) := by
  obtain ⟨f, ftl, hfl⟩ : ∃ f ftl, allProbsSet spg = f :: ftl := by
    cases h : allProbsSet spg with
    | nil => exact absurd h hne
    | cons f ftl => exact ⟨f, ftl, rfl⟩
  refine ⟨listMinQ f ftl, listMaxN (limdenV f maxd).den
    (ftl.map (fun q => (limdenV q maxd).den)), ?_, ?_, ?_, ?_, ?_⟩
  · unfold max_denom_and_min_prob
    rw [hfl]
    dsimp only
    rw [mapM_limden maxd h1]
    show Except.ok (listMinQ f ftl, listMaxN (limdenV f maxd).den
        (List.map (fun q => q.den) (List.map (fun f => limdenV f maxd) ftl))) =
      Except.ok (listMinQ f ftl, listMaxN (limdenV f maxd).den
        (List.map (fun q => (limdenV q maxd).den) ftl))
    rw [List.map_map]
    rfl
  · rw [hfl]
    exact foldl_min_mem ftl f
  · intro x hx
    rw [hfl] at hx
    rcases List.mem_cons.mp hx with rfl | hx2
    · exact foldl_min_le_init ftl x
    · exact foldl_min_le_mem ftl f x hx2
  · intro x hx
    rw [hfl] at hx
    rcases List.mem_cons.mp hx with rfl | hx2
    · exact le_foldl_max_init _ _
    · exact le_foldl_max_mem _ _ _ (List.mem_map_of_mem _ hx2)
  · have hmem := foldl_max_mem (ftl.map (fun q => (limdenV q maxd).den)) (limdenV f maxd).den
    rcases List.mem_cons.mp hmem with heq | hmem2
    · exact ⟨f, by rw [hfl]; exact List.mem_cons_self _ _, heq.symm⟩
    · obtain ⟨q, hq, hq2⟩ := List.mem_map.mp hmem2
      exact ⟨q, by rw [hfl]; exact List.mem_cons_of_mem _ hq, hq2⟩

end AnalyzerLemmas

/-! ### Priority-list lemmas -/

section PriorityLemmas

theorem usedPriorities_nodup (spg : StochasticParityGame) : (usedPriorities spg).Nodup := by
  unfold usedPriorities
  refine (List.perm_insertionSort (· ≤ ·) _).nodup_iff.mpr ?_
  exact foldl_sinsert_nodup_gen (fun v => v.priority) spg.vertices [] List.nodup_nil

theorem usedPriorities_sorted (spg : StochasticParityGame) :
    List.Sorted (· ≤ ·) (usedPriorities spg) :=
  List.sorted_insertionSort (· ≤ ·) _

theorem mem_usedPriorities (spg : StochasticParityGame) (p : ℕ) :
    p ∈ usedPriorities spg ↔ ∃ v ∈ spg.vertices, v.priority = p := by
  unfold usedPriorities
  rw [(List.perm_insertionSort (· ≤ ·) _).mem_iff,
    foldl_sinsert_mem_gen (fun v => v.priority) spg.vertices]
  simp

theorem usedPriorities_ne_nil (spg : StochasticParityGame) (hne : spg.vertices ≠ []) :
    usedPriorities spg ≠ [] := by
  obtain ⟨v, vs, hv⟩ : ∃ v vs, spg.vertices = v :: vs := by
    cases h : spg.vertices with
    | nil => exact absurd h hne
    | cons v vs => exact ⟨v, vs, rfl⟩
  have : v.priority ∈ usedPriorities spg :=
    (mem_usedPriorities spg v.priority).mpr ⟨v, by rw [hv]; exact List.mem_cons_self _ _, rfl⟩
  intro hc
  rw [hc] at this
  exact absurd this (List.not_mem_nil _)

theorem usedPriorities_head_min (spg : StochasticParityGame) (u0 : ℕ) (rest : List ℕ)
    (h : usedPriorities spg = u0 :: rest) : ∀ p ∈ usedPriorities spg, u0 ≤ p := by
  intro p hp
  have hs := usedPriorities_sorted spg
  rw [h] at hs hp
  rcases List.mem_cons.mp hp with rfl | h2
  · exact le_refl p
  · exact (List.sorted_cons.mp hs).1 p h2

end PriorityLemmas

/-! ### Alpha-derivation characterization -/

section AlphaLemmas

theorem ebind_ok {α β : Type} (a : α) (f : α → Except PyError β) :
    (Except.ok a >>= f) = f a := rfl

theorem pydivQ_ok (a b : ℚ) (h : b ≠ 0) : pydivQ a b = .ok (a / b) := by
  unfold pydivQ
  rw [if_neg h]


theorem alphaChainLoop_run (ratio : ℚ) : ∀ (l : List ℕ) (acc : List (ℕ × ℚ)) (p : ℕ) (ap : ℚ),
    dlookup acc p = some ap → (∀ q ∈ l, dlookup acc q = none) → l.Nodup →
    alphaChainLoop ratio ((p :: l).zip l) acc = .ok (acc ++ geomFrom ratio ap l) := by
  intro l
  induction l with
  | nil => intro acc p ap hp hfresh hnd; simp [alphaChainLoop, geomFrom]
  | cons q tl ih =>
    intro acc p ap hp hfresh hnd
    have hq : dlookup acc q = none := hfresh q (List.mem_cons_self _ _)
    have hstep : alphaChainLoop ratio ((p :: q :: tl).zip (q :: tl)) acc =
        alphaChainLoop ratio ((q :: tl).zip tl) (dupdate acc q (ap * ratio)) := by
      show (do
        let _gap : ℤ := (q : ℤ) - (p : ℤ)
        let aprev ← dget acc p
        alphaChainLoop ratio ((q :: tl).zip tl) (dupdate acc q (aprev * ratio))) =
        alphaChainLoop ratio ((q :: tl).zip tl) (dupdate acc q (ap * ratio))
      rw [(dget_eq_ok_iff acc p ap).mpr hp, ebind_ok]
    rw [hstep, dupdate_of_lookup_none acc q (ap * ratio) hq]
    rw [ih (acc ++ [(q, ap * ratio)]) q (ap * ratio) ?hq2 ?hfresh2 (List.nodup_cons.mp hnd).2]
    · rw [geomFrom, List.append_assoc]
      rfl
    case hq2 =>
      rw [dlookup_append_right acc _ q hq]
      simp [dlookup]
    case hfresh2 =>
      intro r hr
      rw [dlookup_append_right acc _ r (hfresh r (List.mem_cons_of_mem _ hr))]
      have : q ≠ r := by
        intro hc
        exact (List.nodup_cons.mp hnd).1 (hc ▸ hr)
      simp [dlookup, this]

/-- Sound mode: the alpha map is exactly priority `p_i ↦ alpha0 * ratio^i`
along the sorted distinct priorities. -/
theorem compute_alphas_none_spec (spg : StochasticParityGame) (maxd : ℕ) (h1 : 1 ≤ maxd)
    (mp : ℚ) (M : ℕ) (hmd : max_denom_and_min_prob spg maxd = .ok (mp, M))
    (u0 : ℕ) (rest : List ℕ) (hused : usedPriorities spg = u0 :: rest) :
    compute_alphas_for_spg spg none maxd =
      .ok ((u0, soundAlpha0 (limdenV mp maxd) spg.vertices.length M) ::
        geomFrom (soundRatio (limdenV mp maxd) spg.vertices.length M)
          (soundAlpha0 (limdenV mp maxd) spg.vertices.length M) rest) := by
  have hld : limit_denominator mp maxd = .ok (limdenV mp maxd) := by
    unfold limit_denominator
    rw [if_neg (by omega)]
  have hndup := usedPriorities_nodup spg
  rw [hused] at hndup
  unfold compute_alphas_for_spg
  rw [hmd, ebind_ok]
  dsimp only
  rw [hld, ebind_ok, hused]
  dsimp only
  have hrun := alphaChainLoop_run
    (soundRatio (limdenV mp maxd) spg.vertices.length M) rest
    (dupdate [] u0 (soundAlpha0 (limdenV mp maxd) spg.vertices.length M)) u0
    (soundAlpha0 (limdenV mp maxd) spg.vertices.length M)
    (dlookup_dupdate_self [] u0 _)
    (fun q hq => by
      have : u0 ≠ q := fun hc => (List.nodup_cons.mp hndup).1 (hc ▸ hq)
      simp [dupdate, dlookup, this])
    (List.nodup_cons.mp hndup).2
  simp only [soundAlpha0, soundRatio, soundDenominator] at hrun
  rw [show (u0 :: rest).tail = rest from rfl] at *
  rw [hrun]
  simp [dupdate, soundAlpha0, soundRatio, soundDenominator]

/-- Epsilon mode with `0 < e < 4`: the alpha map is exactly priority
`p_i ↦ alpha0 * ratio^i` along the sorted distinct priorities. -/
theorem compute_alphas_some_spec (spg : StochasticParityGame) (maxd : ℕ) (h1 : 1 ≤ maxd)
    (mp : ℚ) (M : ℕ) (hmd : max_denom_and_min_prob spg maxd = .ok (mp, M))
    (u0 : ℕ) (rest : List ℕ) (hused : usedPriorities spg = u0 :: rest)
    (e : ℚ) (he0 : 0 < e) (he4 : e < 4) :
    compute_alphas_for_spg spg (some e) maxd =
      .ok ((u0, epsAlpha0 (limdenV mp maxd) spg.vertices.length e) ::
        geomFrom (epsRatio (limdenV mp maxd) spg.vertices.length e)
          (epsAlpha0 (limdenV mp maxd) spg.vertices.length e) rest) := by
  have hld : limit_denominator mp maxd = .ok (limdenV mp maxd) := by
    unfold limit_denominator
    rw [if_neg (by omega)]
  have hndup := usedPriorities_nodup spg
  rw [hused] at hndup
  have hd1 : (4 - e) * 8 ≠ 0 := by intro hc; nlinarith
  have hd2 : 4 * e ≠ 0 := by intro hc; nlinarith
  have hd3 : 8 * (4 - e) / (4 * e) + 1 ≠ 0 := by
    have : 0 < 8 * (4 - e) / (4 * e) := div_pos (by nlinarith) (by nlinarith)
    nlinarith
  unfold compute_alphas_for_spg
  rw [hmd, ebind_ok]
  dsimp only
  rw [hld, ebind_ok]
  rw [pydivQ_ok _ _ hd1, ebind_ok, pydivQ_ok _ _ hd2, ebind_ok, pydivQ_ok _ _ hd3, ebind_ok,
    hused]
  dsimp only
  have hrun := alphaChainLoop_run
    (epsRatio (limdenV mp maxd) spg.vertices.length e) rest
    (dupdate [] u0 (epsAlpha0 (limdenV mp maxd) spg.vertices.length e)) u0
    (epsAlpha0 (limdenV mp maxd) spg.vertices.length e)
    (dlookup_dupdate_self [] u0 _)
    (fun q hq => by
      have : u0 ≠ q := fun hc => (List.nodup_cons.mp hndup).1 (hc ▸ hq)
      simp [dupdate, dlookup, this])
    (List.nodup_cons.mp hndup).2
  simp only [epsAlpha0, epsRatio] at hrun
  rw [show (u0 :: rest).tail = rest from rfl] at *
  rw [hrun]
  simp [dupdate, epsAlpha0, epsRatio]

theorem geom_lookup (r : ℚ) : ∀ (l : List ℕ) (p : ℕ) (a : ℚ), (p :: l).Nodup →
    ∀ i (h : i < (p :: l).length),
      dlookup ((p, a) :: geomFrom r a l) ((p :: l).get ⟨i, h⟩) = some (a * r ^ i) := by
  intro l
  induction l with
  | nil =>
    intro p a hnd i h
    match i, h with
    | 0, _ => simp [dlookup, geomFrom]
  | cons q tl ih =>
    intro p a hnd i h
    match i with
    | 0 => simp [dlookup, geomFrom]
    | j + 1 =>
      have hget : ((p :: q :: tl).get ⟨j + 1, h⟩) = ((q :: tl).get ⟨j, by simpa using h⟩) := rfl
      rw [hget]
      have hp : p ≠ (q :: tl).get ⟨j, by simpa using h⟩ := by
        intro hc
        exact (List.nodup_cons.mp hnd).1 (hc ▸ List.get_mem _ _ _)
      rw [geomFrom]
      show dlookup ((p, a) :: (q, a * r) :: geomFrom r (a * r) tl) _ = _
      rw [dlookup, if_neg hp]
      rw [ih q (a * r) (List.nodup_cons.mp hnd).2 j (by simpa using h)]
      ring_nf

theorem geomFrom_keys (r : ℚ) : ∀ (l : List ℕ) (a : ℚ),
    (geomFrom r a l).map (fun kv => kv.1) = l := by
  intro l
  induction l with
  | nil => intro a; rfl
  | cons q tl ih => intro a; simp [geomFrom, ih]

theorem geom_lookup_inv (r : ℚ) : ∀ (l : List ℕ) (p : ℕ) (a : ℚ) (x : ℕ) (b : ℚ),
    dlookup ((p, a) :: geomFrom r a l) x = some b →
    ∃ i, ∃ h : i < (p :: l).length, (p :: l).get ⟨i, h⟩ = x ∧ b = a * r ^ i := by
  intro l
  induction l with
  | nil =>
    intro p a x b hb
    rw [geomFrom] at hb
    by_cases hp : p = x
    · rw [dlookup, if_pos hp] at hb
      exact ⟨0, by simp, hp, by simpa using (Option.some.inj hb).symm⟩
    · rw [dlookup, if_neg hp, dlookup] at hb
      exact absurd hb (by simp)
  | cons q tl ih =>
    intro p a x b hb
    by_cases hp : p = x
    · rw [dlookup, if_pos hp] at hb
      exact ⟨0, by simp, hp, by simpa using (Option.some.inj hb).symm⟩
    · rw [geomFrom, dlookup, if_neg hp] at hb
      obtain ⟨i, hi, hget, hbv⟩ := ih q (a * r) x b hb
      refine ⟨i + 1, by simpa using hi, hget, ?_⟩
      rw [hbv]
      ring_nf

end AlphaLemmas

/-! ### Transformer lemmas -/

section TransformerLemmas


theorem ebind_ok_inv {α β : Type} (m : Except PyError α) (f : α → Except PyError β) (b : β)
    (h : (m >>= f) = .ok b) : ∃ a, m = .ok a ∧ f a = .ok b := by
  cases m with
  | ok a => exact ⟨a, rfl, h⟩
  | error e => exact Except.noConfusion h

theorem ebind_err {α β : Type} (e : PyError) (f : α → Except PyError β) :
    ((Except.error e : Except PyError α) >>= f) = .error e := rfl

theorem dlookup_vmap (f : SpgVertex → SsgVertex) : ∀ (vs : List SpgVertex),
    (vs.map (fun v => v.name)).Nodup → ∀ v ∈ vs,
    dlookup (vs.map (fun v => (v.name, f v))) v.name = some (f v) := by
  intro vs
  induction vs with
  | nil => intro _ v hv; simp at hv
  | cons w tl ih =>
    intro hnd v hv
    simp only [List.map_cons, List.nodup_cons] at hnd
    rcases List.mem_cons.mp hv with rfl | h2
    · simp [dlookup]
    · have hne : w.name ≠ v.name := by
        intro hc
        exact hnd.1 (hc ▸ List.mem_map_of_mem (fun v => v.name) h2)
      simp only [List.map_cons, dlookup, if_neg hne]
      exact ih hnd.2 v h2

theorem dlookup_rsvmap : ∀ (vs : List SpgVertex),
    (vs.map (fun v => v.name)).Nodup → ∀ v ∈ vs,
    dlookup (vs.map (fun v => (v, decVertex v))) v = some (decVertex v) := by
  intro vs
  induction vs with
  | nil => intro _ v hv; simp at hv
  | cons w tl ih =>
    intro hnd v hv
    simp only [List.map_cons, List.nodup_cons] at hnd
    rcases List.mem_cons.mp hv with rfl | h2
    · simp [dlookup]
    · have hne : w ≠ v := by
        intro hc
        exact hnd.1 (hc ▸ List.mem_map_of_mem (fun v => v.name) h2)
      simp only [List.map_cons, dlookup, if_neg hne]
      exact ih hnd.2 v h2

theorem decisionLoop_eq : ∀ (vs : List SpgVertex) (d : List (String × SsgVertex))
    (r : List (SpgVertex × SsgVertex)),
    (vs.map (fun v => v.name)).Nodup →
    (∀ v ∈ vs, dlookup d v.name = none) →
    (∀ v ∈ vs, dlookup r v = none) →
    decisionLoop vs d r =
      .ok (d ++ vs.map (fun v => (v.name, decVertex v)), r ++ vs.map (fun v => (v, decVertex v))) := by
  intro vs
  induction vs with
  | nil => intro d r _ _ _; simp [decisionLoop]
  | cons v tl ih =>
    intro d r hnd hd hr
    simp only [List.map_cons, List.nodup_cons] at hnd
    have hdv : dlookup d v.name = none := hd v (List.mem_cons_self _ _)
    have hrv : dlookup r v = none := hr v (List.mem_cons_self _ _)
    have hstep : decisionLoop (v :: tl) d r =
        decisionLoop tl (dupdate d v.name (decVertex v)) (dupdate r v (decVertex v)) := by
      show (do
        let vert ← dget (dupdate d v.name (decVertex v)) v.name
        decisionLoop tl (dupdate d v.name (decVertex v)) (dupdate r v vert)) = _
      rw [(dget_eq_ok_iff _ _ _).mpr (dlookup_dupdate_self d v.name (decVertex v)), ebind_ok]
    rw [hstep, dupdate_of_lookup_none d v.name _ hdv, dupdate_of_lookup_none r v _ hrv]
    rw [ih (d ++ [(v.name, decVertex v)]) (r ++ [(v, decVertex v)]) hnd.2 ?hd2 ?hr2]
    · simp
    case hd2 =>
      intro w hw
      rw [dlookup_append_right d _ _ (hd w (List.mem_cons_of_mem _ hw))]
      have : v.name ≠ w.name := by
        intro hc
        exact hnd.1 (hc ▸ List.mem_map_of_mem (fun v => v.name) hw)
      simp [dlookup, this]
    case hr2 =>
      intro w hw
      rw [dlookup_append_right r _ _ (hr w (List.mem_cons_of_mem _ hw))]
      have : v ≠ w := by
        intro hc
        exact hnd.1 (hc ▸ List.mem_map_of_mem (fun v => v.name) hw)
      simp [dlookup, this]

theorem freshIdx_spec (d : List (String × SsgVertex)) (base : String) :
    ∀ (fuel start : ℕ),
    (∃ j < fuel, dmem d (base ++ natStr (start + j)) = false) →
    dmem d (base ++ natStr (freshIdx d base fuel start)) = false := by
  intro fuel
  induction fuel with
  | zero =>
    intro start h
    obtain ⟨j, hj, _⟩ := h
    omega
  | succ f ih =>
    intro start h
    unfold freshIdx
    by_cases hm : dmem d (base ++ natStr start)
    · rw [if_pos hm]
      obtain ⟨j, hj, hfree⟩ := h
      match j, hj, hfree with
      | 0, _, hfree =>
        rw [show start + 0 = start from rfl] at hfree
        rw [hfree] at hm
        cases hm
      | j + 1, hj, hfree =>
        exact ih (start + 1) ⟨j, by omega, by rw [show start + 1 + j = start + (j + 1) by omega]; exact hfree⟩
    · rw [if_neg hm]
      simpa using hm

theorem exists_fresh_idx (d : List (String × SsgVertex)) (base : String) :
    ∃ j < d.length + 1, dmem d (base ++ natStr j) = false := by
  by_contra hc
  push_neg at hc
  have hall : ∀ j < d.length + 1, dmem d (base ++ natStr j) = true := by
    intro j hj
    have := hc j hj
    revert this
    cases dmem d (base ++ natStr j) <;> simp
  have hsub : ((List.range (d.length + 1)).map (fun j => base ++ natStr j)) ⊆
      d.map (fun kv => kv.1) := by
    intro x hx
    obtain ⟨j, hj, rfl⟩ := List.mem_map.mp hx
    rw [List.mem_range] at hj
    exact (dmem_iff d _).mp (hall j hj)
  have hnd : ((List.range (d.length + 1)).map (fun j => base ++ natStr j)).Nodup := by
    refine List.Nodup.map ?_ (List.nodup_range _)
    intro a b hab
    exact natStr_inj a b (string_append_right_inj base _ _ hab)
  have hlen := (List.subperm_of_subset hnd hsub).length_le
  rw [List.length_map, List.length_range, List.length_map] at hlen
  omega

theorem freshIdx_key_not_mem (d : List (String × SsgVertex)) (base : String) :
    dmem d (base ++ natStr (freshIdx d base (d.length + 1) 0)) = false := by
  apply freshIdx_spec
  obtain ⟨j, hj, hfree⟩ := exists_fresh_idx d base
  exact ⟨j, hj, by simpa using hfree⟩

theorem mem_dupdate {α β : Type} [DecidableEq α] : ∀ (d : List (α × β)) (k : α) (v : β),
    ∀ kv ∈ dupdate d k v, kv ∈ d ∨ kv = (k, v) := by
  intro d
  induction d with
  | nil =>
    intro k v kv hkv
    simp [dupdate] at hkv
    exact Or.inr hkv
  | cons hd tl ih =>
    intro k v kv hkv
    by_cases h2 : hd.1 = k
    · simp only [dupdate, if_pos h2] at hkv
      rcases List.mem_cons.mp hkv with rfl | h3
      · exact Or.inr rfl
      · exact Or.inl (List.mem_cons_of_mem _ h3)
    · simp only [dupdate, if_neg h2] at hkv
      rcases List.mem_cons.mp hkv with rfl | h3
      · exact Or.inl (List.mem_cons_self _ _)
      · rcases ih k v kv h3 with h4 | h4
        · exact Or.inl (List.mem_cons_of_mem _ h4)
        · exact Or.inr h4

theorem dlookup_dupdate_isSome {α β : Type} [DecidableEq α] (d : List (α × β)) (k x : α) (v : β)
    (h : (dlookup d x).isSome = true) : (dlookup (dupdate d k v) x).isSome = true := by
  by_cases hx : k = x
  · rw [hx, dlookup_dupdate_self]
    rfl
  · rw [dlookup_dupdate_ne d k x v hx]
    exact h

/-- General characterization of the intermediate-vertex loop, with no
assumption on name collisions: the loop succeeds, the correspondence gains
an entry for the decision vertex of every visited SPG vertex, and every new
vertex is filed under a key that is free in the original dict. -/
theorem intermediateLoop_general (vertices0 : List (String × SsgVertex)) :
    ∀ (vs : List SpgVertex) (nv : List (String × SsgVertex))
      (ri : List (SsgVertex × SsgVertex)),
    (∀ v ∈ vs, dlookup vertices0 v.name = some (decVertex v)) →
    ∃ nv2 ri2, intermediateLoop vertices0 vs nv ri = .ok (nv2, ri2) ∧
      (∀ x, (dlookup ri x).isSome = true → (dlookup ri2 x).isSome = true) ∧
      (∀ v ∈ vs, (dlookup ri2 (decVertex v)).isSome = true) ∧
      (∀ kv ∈ nv2, kv ∈ nv ∨ dmem vertices0 kv.1 = false) := by
  intro vs
  induction vs with
  | nil =>
    intro nv ri _
    exact ⟨nv, ri, rfl, fun x h => h, fun v hv => absurd hv (List.not_mem_nil v),
      fun kv hkv => Or.inl hkv⟩
  | cons v tl ih =>
    intro nv ri hlook
    have hlv : dlookup vertices0 v.name = some (decVertex v) :=
      hlook v (List.mem_cons_self _ _)
    by_cases hcond : dmem vertices0 (v.name ++ primeMark)
    · -- collision branch: a fresh suffixed key is selected
      set key := v.name ++ primeMark ++
        natStr (freshIdx vertices0 (v.name ++ primeMark) (vertices0.length + 1) 0) with hkey
      set newV : SsgVertex := ⟨key, !v.is_eve, false⟩ with hnewV
      have hkfree : dmem vertices0 key = false := by
        rw [hkey]
        exact freshIdx_key_not_mem vertices0 (v.name ++ primeMark)
      have hstep : intermediateLoop vertices0 (v :: tl) nv ri =
          intermediateLoop vertices0 tl (dupdate nv key newV)
            (dupdate ri (decVertex v) newV) := by
        rw [intermediateLoop, hcond]
        simp only [if_true]
        rw [(dget_eq_ok_iff _ _ _).mpr hlv, ebind_ok]
      obtain ⟨nv2, ri2, hloop, hpres, hall, hnew⟩ :=
        ih (dupdate nv key newV) (dupdate ri (decVertex v) newV)
          (fun w hw => hlook w (List.mem_cons_of_mem _ hw))
      refine ⟨nv2, ri2, by rw [hstep]; exact hloop, ?_, ?_, ?_⟩
      · intro x hx
        exact hpres x (dlookup_dupdate_isSome ri (decVertex v) x newV hx)
      · intro w hw
        rcases List.mem_cons.mp hw with rfl | h2
        · exact hpres (decVertex w) (by rw [dlookup_dupdate_self]; rfl)
        · exact hall w h2
      · intro kv hkv
        rcases hnew kv hkv with h3 | h3
        · rcases mem_dupdate nv key newV kv h3 with h4 | h4
          · exact Or.inl h4
          · exact Or.inr (by rw [h4]; exact hkfree)
        · exact Or.inr h3
    · -- fresh primed name
      have hcondf : dmem vertices0 (v.name ++ primeMark) = false := by
        simpa using hcond
      have hstep : intermediateLoop vertices0 (v :: tl) nv ri =
          intermediateLoop vertices0 tl (dupdate nv (v.name ++ primeMark) (itmVertex v))
            (dupdate ri (decVertex v) (itmVertex v)) := by
        rw [intermediateLoop, hcondf]
        simp only [Bool.false_eq_true, if_false]
        rw [(dget_eq_ok_iff _ _ _).mpr hlv, ebind_ok]
        rfl
      obtain ⟨nv2, ri2, hloop, hpres, hall, hnew⟩ :=
        ih (dupdate nv (v.name ++ primeMark) (itmVertex v))
          (dupdate ri (decVertex v) (itmVertex v))
          (fun w hw => hlook w (List.mem_cons_of_mem _ hw))
      refine ⟨nv2, ri2, by rw [hstep]; exact hloop, ?_, ?_, ?_⟩
      · intro x hx
        exact hpres x (dlookup_dupdate_isSome ri (decVertex v) x (itmVertex v) hx)
      · intro w hw
        rcases List.mem_cons.mp hw with rfl | h2
        · exact hpres (decVertex w) (by rw [dlookup_dupdate_self]; rfl)
        · exact hall w h2
      · intro kv hkv
        rcases hnew kv hkv with h3 | h3
        · rcases mem_dupdate nv (v.name ++ primeMark) (itmVertex v) kv h3 with h4 | h4
          · exact Or.inl h4
          · exact Or.inr (by rw [h4]; exact hcondf)
        · exact Or.inr h3

theorem string_append_ne_self (s t : String) (h : t ≠ "") : s ++ t ≠ s := by
  intro hc
  have hd : s.data ++ t.data = s.data := congrArg String.data hc
  have hlen := congrArg List.length hd
  rw [List.length_append] at hlen
  have : t.data = [] := List.length_eq_zero.mp (by omega)
  exact h (by cases t; simp_all)

theorem natStr_ne_empty (n : ℕ) : natStr n ≠ "" := by
  intro hc
  have hd : natStrAux (n + 1) n = ([] : List Char) := congrArg String.data hc
  exact natStrAux_ne_nil (n + 1) n (Nat.succ_pos n) hd

theorem addWinSink_pres (d : List (String × SsgVertex)) (k : String)
    (hk : (dlookup d k).isSome = true) : dlookup (addWinSink d) k = dlookup d k := by
  unfold addWinSink
  by_cases hm : dmem d "v_win"
  · rw [if_pos hm]
    have hfree : dmem d ("v_win" ++ natStr (freshIdx d "v_win" (d.length + 1) 0)) = false :=
      freshIdx_key_not_mem d "v_win"
    have hne : "v_win" ++ natStr (freshIdx d "v_win" (d.length + 1) 0) ≠ k := by
      intro hc
      rw [hc] at hfree
      rw [dmem, hk] at hfree
      cases hfree
    exact dlookup_dupdate_ne d _ k _ hne
  · rw [if_neg hm]
    have hne : "v_win" ≠ k := by
      intro hc
      rw [dmem, hc, hk] at hm
      exact hm rfl
    exact dlookup_dupdate_ne d _ k _ hne

theorem addLoseSink_pres (d : List (String × SsgVertex)) (k : String)
    (hk : (dlookup d k).isSome = true) : dlookup (addLoseSink d) k = dlookup d k := by
  unfold addLoseSink
  by_cases hm : dmem d "v_lose"
  · rw [if_pos hm]
    have hfree : dmem d ("v_lose" ++ natStr (freshIdx d "v_lose" (d.length + 1) 0)) = false :=
      freshIdx_key_not_mem d "v_lose"
    have hne : "v_lose" ++ natStr (freshIdx d "v_lose" (d.length + 1) 0) ≠ k := by
      intro hc
      rw [hc] at hfree
      rw [dmem, hk] at hfree
      cases hfree
    exact dlookup_dupdate_ne d _ k _ hne
  · rw [if_neg hm]
    have hne : "v_lose" ≠ k := by
      intro hc
      rw [dmem, hc, hk] at hm
      exact hm rfl
    exact dlookup_dupdate_ne d _ k _ hne

theorem addWinSink_win_isSome (d : List (String × SsgVertex)) :
    (dlookup (addWinSink d) "v_win").isSome = true := by
  unfold addWinSink
  by_cases hm : dmem d "v_win"
  · rw [if_pos hm]
    have hne : "v_win" ++ natStr (freshIdx d "v_win" (d.length + 1) 0) ≠ "v_win" :=
      string_append_ne_self _ _ (natStr_ne_empty _)
    rw [dlookup_dupdate_ne d _ _ _ hne]
    exact hm
  · rw [if_neg hm, dlookup_dupdate_self]
    rfl

theorem addLoseSink_lose_isSome (d : List (String × SsgVertex)) :
    (dlookup (addLoseSink d) "v_lose").isSome = true := by
  unfold addLoseSink
  by_cases hm : dmem d "v_lose"
  · rw [if_pos hm]
    have hne : "v_lose" ++ natStr (freshIdx d "v_lose" (d.length + 1) 0) ≠ "v_lose" :=
      string_append_ne_self _ _ (natStr_ne_empty _)
    rw [dlookup_dupdate_ne d _ _ _ hne]
    exact hm
  · rw [if_neg hm, dlookup_dupdate_self]
    rfl

/-- The exact form of the intermediate-vertex loop when no primed name
collides: every vertex receives the plainly primed name. -/
theorem intermediateLoop_eq (vertices0 : List (String × SsgVertex)) :
    ∀ (vs : List SpgVertex) (nv : List (String × SsgVertex))
      (ri : List (SsgVertex × SsgVertex)),
    (vs.map (fun v => v.name)).Nodup →
    (∀ v ∈ vs, dmem vertices0 (v.name ++ primeMark) = false) →
    (∀ v ∈ vs, dlookup vertices0 v.name = some (decVertex v)) →
    (∀ v ∈ vs, dlookup nv (v.name ++ primeMark) = none) →
    (∀ v ∈ vs, dlookup ri (decVertex v) = none) →
    intermediateLoop vertices0 vs nv ri =
      .ok (nv ++ vs.map (fun v => (v.name ++ primeMark, itmVertex v)),
           ri ++ vs.map (fun v => (decVertex v, itmVertex v))) := by
  intro vs
  induction vs with
  | nil => intro nv ri _ _ _ _ _; simp [intermediateLoop]
  | cons v tl ih =>
    intro nv ri hnd hfree hlook hnv hri
    simp only [List.map_cons, List.nodup_cons] at hnd
    have hcondf : dmem vertices0 (v.name ++ primeMark) = false :=
      hfree v (List.mem_cons_self _ _)
    have hlv : dlookup vertices0 v.name = some (decVertex v) :=
      hlook v (List.mem_cons_self _ _)
    have hstep : intermediateLoop vertices0 (v :: tl) nv ri =
        intermediateLoop vertices0 tl (dupdate nv (v.name ++ primeMark) (itmVertex v))
          (dupdate ri (decVertex v) (itmVertex v)) := by
      rw [intermediateLoop, hcondf]
      simp only [Bool.false_eq_true, if_false]
      rw [(dget_eq_ok_iff _ _ _).mpr hlv, ebind_ok]
      rfl
    rw [hstep,
      dupdate_of_lookup_none nv _ _ (hnv v (List.mem_cons_self _ _)),
      dupdate_of_lookup_none ri _ _ (hri v (List.mem_cons_self _ _)),
      ih (nv ++ [(v.name ++ primeMark, itmVertex v)]) (ri ++ [(decVertex v, itmVertex v)])
        hnd.2
        (fun w hw => hfree w (List.mem_cons_of_mem _ hw))
        (fun w hw => hlook w (List.mem_cons_of_mem _ hw))
        ?hnv2 ?hri2]
    · simp
    case hnv2 =>
      intro w hw
      rw [dlookup_append_right nv _ _ (hnv w (List.mem_cons_of_mem _ hw))]
      have hne : v.name ++ primeMark ≠ w.name ++ primeMark := by
        intro hc
        have : v.name = w.name := by
          have hd := congrArg String.data hc
          simp only [string_data_append] at hd
          have := List.append_inj hd (by
            have hlen := congrArg List.length hd
            simp only [List.length_append] at hlen
            omega)
          exact congrArg String.mk (by
            cases hv : v.name
            cases hw2 : w.name
            simp_all)
        exact hnd.1 (this ▸ List.mem_map_of_mem (fun v => v.name) hw)
      simp [dlookup, hne]
    case hri2 =>
      intro w hw
      rw [dlookup_append_right ri _ _ (hri w (List.mem_cons_of_mem _ hw))]
      have hne : decVertex v ≠ decVertex w := by
        intro hc
        have : v.name = w.name := congrArg SsgVertex.name hc
        exact hnd.1 (this ▸ List.mem_map_of_mem (fun v => v.name) hw)
      simp [dlookup, hne]

theorem endLoop_ok (vertices : List (String × SsgVertex))
    (ri : List (SsgVertex × SsgVertex)) :
    ∀ (l : List (ℚ × SpgVertex)) (acc : List (ℚ × SsgVertex)),
    (∀ pv ∈ l, ∃ dv, dlookup vertices pv.2.name = some dv ∧ (dlookup ri dv).isSome = true) →
    ∃ out, endLoop vertices ri l acc = .ok out := by
  intro l
  induction l with
  | nil => intro acc _; exact ⟨acc, rfl⟩
  | cons pv tl ih =>
    intro acc hl
    obtain ⟨dv, hdv, hri⟩ := hl pv (List.mem_cons_self _ _)
    obtain ⟨iv, hiv⟩ := Option.isSome_iff_exists.mp hri
    obtain ⟨out, hout⟩ := ih (sinsert acc (pv.1, iv)) (fun q hq => hl q (List.mem_cons_of_mem _ hq))
    refine ⟨out, ?_⟩
    show (do
      let dv2 ← dget vertices pv.2.name
      let iv2 ← dget ri dv2
      endLoop vertices ri tl (sinsert acc (pv.1, iv2))) = .ok out
    rw [(dget_eq_ok_iff _ _ _).mpr hdv, ebind_ok, (dget_eq_ok_iff _ _ _).mpr hiv, ebind_ok]
    exact hout

theorem copyLoop_ok (vertices : List (String × SsgVertex))
    (ri : List (SsgVertex × SsgVertex)) :
    ∀ (ts : List SpgTransition) (acc : List ((SsgVertex × String) × SsgTransition)),
    (∀ t ∈ ts, (dlookup vertices t.start_vertex.name).isSome = true ∧
      ∀ pv ∈ t.end_vertices,
        ∃ dv, dlookup vertices pv.2.name = some dv ∧ (dlookup ri dv).isSome = true) →
    ∃ out, copyLoop vertices ri ts acc = .ok out := by
  intro ts
  induction ts with
  | nil => intro acc _; exact ⟨acc, rfl⟩
  | cons t tl ih =>
    intro acc hts
    obtain ⟨hstart, hend⟩ := hts t (List.mem_cons_self _ _)
    obtain ⟨sv, hsv⟩ := Option.isSome_iff_exists.mp hstart
    obtain ⟨evs, hevs⟩ := endLoop_ok vertices ri t.end_vertices [] hend
    obtain ⟨out, hout⟩ := ih (dupdate acc (sv, t.action) ⟨sv, evs, t.action⟩)
      (fun u hu => hts u (List.mem_cons_of_mem _ hu))
    refine ⟨out, ?_⟩
    show (do
      let start_v ← dget vertices t.start_vertex.name
      let end_vs ← endLoop vertices ri t.end_vertices []
      copyLoop vertices ri tl (dupdate acc (start_v, t.action) ⟨start_v, end_vs, t.action⟩)) =
        .ok out
    rw [(dget_eq_ok_iff _ _ _).mpr hsv, ebind_ok, hevs, ebind_ok]
    exact hout


theorem alphaTransLoop_ok (vertices : List (String × SsgVertex))
    (rsv : List (SpgVertex × SsgVertex)) (ri : List (SsgVertex × SsgVertex))
    (alphas : List (ℕ × ℚ)) :
    ∀ (vs : List SpgVertex) (acc : List ((SsgVertex × String) × SsgTransition)),
    (∀ v ∈ vs, AlphaCtx vertices rsv ri v) →
    (∀ v ∈ vs, (dlookup alphas v.priority).isSome = true) →
    ∃ out, alphaTransLoop vertices rsv ri alphas vs acc = .ok out := by
  intro vs
  induction vs with
  | nil => intro acc _ _; exact ⟨acc, rfl⟩
  | cons v tl ih =>
    intro acc hctx hcov
    obtain ⟨dv, hdv, hri, hwin, hlose, hback⟩ := hctx v (List.mem_cons_self _ _)
    obtain ⟨iv, hiv⟩ := Option.isSome_iff_exists.mp hri
    obtain ⟨a, ha⟩ := Option.isSome_iff_exists.mp (hcov v (List.mem_cons_self _ _))
    obtain ⟨wv, hwv⟩ := Option.isSome_iff_exists.mp hwin
    obtain ⟨lv, hlv⟩ := Option.isSome_iff_exists.mp hlose
    obtain ⟨bv, hbv⟩ := Option.isSome_iff_exists.mp hback
    have hctx2 : ∀ w ∈ tl, AlphaCtx vertices rsv ri w :=
      fun w hw => hctx w (List.mem_cons_of_mem _ hw)
    have hcov2 : ∀ w ∈ tl, (dlookup alphas w.priority).isSome = true :=
      fun w hw => hcov w (List.mem_cons_of_mem _ hw)
    by_cases hpar : v.priority % 2 = 0
    · obtain ⟨out, hout⟩ := ih
        (dupdate acc (iv, "alpha") ⟨iv, sinsert (sinsert [] (a, wv)) (1 - a, bv), "alpha"⟩)
        hctx2 hcov2
      refine ⟨out, ?_⟩
      rw [alphaTransLoop,
        (dget_eq_ok_iff _ _ _).mpr hdv, ebind_ok,
        (dget_eq_ok_iff _ _ _).mpr hiv, ebind_ok,
        (dget_eq_ok_iff _ _ _).mpr ha, ebind_ok,
        if_pos hpar,
        (dget_eq_ok_iff _ _ _).mpr hwv, ebind_ok,
        (dget_eq_ok_iff _ _ _).mpr hbv, ebind_ok]
      exact hout
    · obtain ⟨out, hout⟩ := ih
        (dupdate acc (iv, "alpha") ⟨iv, sinsert (sinsert [] (a, lv)) (1 - a, bv), "alpha"⟩)
        hctx2 hcov2
      refine ⟨out, ?_⟩
      rw [alphaTransLoop,
        (dget_eq_ok_iff _ _ _).mpr hdv, ebind_ok,
        (dget_eq_ok_iff _ _ _).mpr hiv, ebind_ok,
        (dget_eq_ok_iff _ _ _).mpr ha, ebind_ok,
        if_neg hpar,
        (dget_eq_ok_iff _ _ _).mpr hlv, ebind_ok,
        (dget_eq_ok_iff _ _ _).mpr hbv, ebind_ok]
      exact hout

theorem alphaTransLoop_keyError (vertices : List (String × SsgVertex))
    (rsv : List (SpgVertex × SsgVertex)) (ri : List (SsgVertex × SsgVertex))
    (alphas : List (ℕ × ℚ)) :
    ∀ (vs : List SpgVertex) (acc : List ((SsgVertex × String) × SsgTransition)),
    (∀ v ∈ vs, AlphaCtx vertices rsv ri v) →
    (∃ v ∈ vs, dlookup alphas v.priority = none) →
    alphaTransLoop vertices rsv ri alphas vs acc = .error .keyError := by
  intro vs
  induction vs with
  | nil =>
    intro acc _ hmiss
    obtain ⟨v, hv, _⟩ := hmiss
    exact absurd hv (List.not_mem_nil v)
  | cons v tl ih =>
    intro acc hctx hmiss
    obtain ⟨dv, hdv, hri, hwin, hlose, hback⟩ := hctx v (List.mem_cons_self _ _)
    obtain ⟨iv, hiv⟩ := Option.isSome_iff_exists.mp hri
    obtain ⟨wv, hwv⟩ := Option.isSome_iff_exists.mp hwin
    obtain ⟨lv, hlv⟩ := Option.isSome_iff_exists.mp hlose
    obtain ⟨bv, hbv⟩ := Option.isSome_iff_exists.mp hback
    by_cases hv : dlookup alphas v.priority = none
    · rw [alphaTransLoop,
        (dget_eq_ok_iff _ _ _).mpr hdv, ebind_ok,
        (dget_eq_ok_iff _ _ _).mpr hiv, ebind_ok,
        (dget_eq_error_iff _ _ _).mpr ⟨hv, rfl⟩, ebind_err]
    · obtain ⟨a, ha⟩ : ∃ a, dlookup alphas v.priority = some a := by
        cases hx : dlookup alphas v.priority with
        | none => exact absurd hx hv
        | some a => exact ⟨a, rfl⟩
      have hmiss2 : ∃ w ∈ tl, dlookup alphas w.priority = none := by
        obtain ⟨w, hw, hwm⟩ := hmiss
        rcases List.mem_cons.mp hw with rfl | h2
        · exact absurd hwm hv
        · exact ⟨w, h2, hwm⟩
      have hctx2 : ∀ w ∈ tl, AlphaCtx vertices rsv ri w :=
        fun w hw => hctx w (List.mem_cons_of_mem _ hw)
      by_cases hpar : v.priority % 2 = 0
      · rw [alphaTransLoop,
          (dget_eq_ok_iff _ _ _).mpr hdv, ebind_ok,
          (dget_eq_ok_iff _ _ _).mpr hiv, ebind_ok,
          (dget_eq_ok_iff _ _ _).mpr ha, ebind_ok,
          if_pos hpar,
          (dget_eq_ok_iff _ _ _).mpr hwv, ebind_ok,
          (dget_eq_ok_iff _ _ _).mpr hbv, ebind_ok]
        exact ih _ hctx2 hmiss2
      · rw [alphaTransLoop,
          (dget_eq_ok_iff _ _ _).mpr hdv, ebind_ok,
          (dget_eq_ok_iff _ _ _).mpr hiv, ebind_ok,
          (dget_eq_ok_iff _ _ _).mpr ha, ebind_ok,
          if_neg hpar,
          (dget_eq_ok_iff _ _ _).mpr hlv, ebind_ok,
          (dget_eq_ok_iff _ _ _).mpr hbv, ebind_ok]
        exact ih _ hctx2 hmiss2

theorem dlookup_decMap (spg : StochasticParityGame) (hnd : (spg.vertices.map (fun v => v.name)).Nodup)
    (v : SpgVertex) (hv : v ∈ spg.vertices) :
    dlookup (decMap spg) v.name = some (decVertex v) :=
  dlookup_vmap decVertex spg.vertices hnd v hv

theorem dlookup_rsvMap (spg : StochasticParityGame) (hnd : (spg.vertices.map (fun v => v.name)).Nodup)
    (v : SpgVertex) (hv : v ∈ spg.vertices) :
    dlookup (rsvMap spg) v = some (decVertex v) :=
  dlookup_rsvmap spg.vertices hnd v hv

theorem decisionLoop_run (spg : StochasticParityGame) (hnd : (spg.vertices.map (fun v => v.name)).Nodup) :
    decisionLoop spg.vertices [] [] = .ok (decMap spg, rsvMap spg) := by
  have h := decisionLoop_eq spg.vertices [] [] hnd (fun v _ => rfl) (fun v _ => rfl)
  simpa [decMap, rsvMap] using h

/-- Setup of the vertex phase of the transformer under well-formedness: the
intermediate loop succeeds, and in the final vertex dict every original name
still maps to its decision vertex while both sink keys are present. -/
theorem pipeline_ctx (spg : StochasticParityGame) (hwf : SpgWf spg) :
    ∃ nv2 ri2, intermediateLoop (decMap spg) spg.vertices [] [] = .ok (nv2, ri2) ∧
      (∀ v ∈ spg.vertices,
        dlookup (addLoseSink (addWinSink (dmerge (decMap spg) nv2))) v.name =
          some (decVertex v)) ∧
      (dlookup (addLoseSink (addWinSink (dmerge (decMap spg) nv2))) "v_win").isSome = true ∧
      (dlookup (addLoseSink (addWinSink (dmerge (decMap spg) nv2))) "v_lose").isSome = true ∧
      (∀ v ∈ spg.vertices, (dlookup ri2 (decVertex v)).isSome = true) := by
  obtain ⟨nv2, ri2, hloop, _, hall, hnew⟩ :=
    intermediateLoop_general (decMap spg) spg.vertices [] []
      (fun v hv => dlookup_decMap spg hwf.1 v hv)
  have hmergepres : ∀ k : String, (dlookup (decMap spg) k).isSome = true →
      dlookup (dmerge (decMap spg) nv2) k = dlookup (decMap spg) k := by
    intro k hk
    apply dmerge_lookup_pres
    intro kv hkv
    rcases hnew kv hkv with h | h
    · exact absurd h (List.not_mem_nil kv)
    · intro hc
      rw [hc, dmem, hk] at h
      cases h
  have hA : ∀ v ∈ spg.vertices, dlookup (addLoseSink (addWinSink (dmerge (decMap spg) nv2)))
      v.name = some (decVertex v) := by
    intro v hv
    have h0 : dlookup (decMap spg) v.name = some (decVertex v) := dlookup_decMap spg hwf.1 v hv
    have h1 : dlookup (dmerge (decMap spg) nv2) v.name = some (decVertex v) := by
      rw [hmergepres v.name (by rw [h0]; rfl)]
      exact h0
    have h2 : dlookup (addWinSink (dmerge (decMap spg) nv2)) v.name = some (decVertex v) := by
      rw [addWinSink_pres _ v.name (by rw [h1]; rfl)]
      exact h1
    rw [addLoseSink_pres _ v.name (by rw [h2]; rfl)]
    exact h2
  have hwin : (dlookup (addLoseSink (addWinSink (dmerge (decMap spg) nv2))) "v_win").isSome
      = true := by
    have h2 := addWinSink_win_isSome (dmerge (decMap spg) nv2)
    rw [addLoseSink_pres _ "v_win" h2]
    exact h2
  exact ⟨nv2, ri2, hloop, hA, hwin, addLoseSink_lose_isSome _, hall⟩

/-- The transformer succeeds when the alpha map covers every priority. -/
theorem given_alphas_ok (spg : StochasticParityGame) (alphas : List (ℕ × ℚ))
    (hwf : SpgWf spg)
    (hcov : ∀ v ∈ spg.vertices, (dlookup alphas v.priority).isSome = true) :
    ∃ ssg, spg_to_ssg_given_alphas spg alphas = .ok ssg := by
  obtain ⟨nv2, ri2, hloop, hA, hwin, hlose, hri⟩ := pipeline_ctx spg hwf
  obtain ⟨ts1, hts1⟩ := copyLoop_ok (addLoseSink (addWinSink (dmerge (decMap spg) nv2))) ri2
    spg.transitions []
    (by
      intro t ht
      obtain ⟨hstart, -, -, -, hmem⟩ := hwf.2.2 t ht
      refine ⟨by rw [hA t.start_vertex hstart]; rfl, ?_⟩
      intro pv hpv
      exact ⟨decVertex pv.2, hA pv.2 (hmem pv hpv).1, hri pv.2 (hmem pv hpv).1⟩)
  obtain ⟨ts2, hts2⟩ := alphaTransLoop_ok (addLoseSink (addWinSink (dmerge (decMap spg) nv2)))
    (rsvMap spg) ri2 alphas spg.vertices ts1
    (by
      intro v hv
      exact ⟨decVertex v, dlookup_rsvMap spg hwf.1 v hv, hri v hv, hwin, hlose,
        by dsimp only [decVertex]; rw [hA v hv]; rfl⟩)
    hcov
  refine ⟨⟨addLoseSink (addWinSink (dmerge (decMap spg) nv2)), ts2,
    decVertex spg.init_vertex⟩, ?_⟩
  unfold spg_to_ssg_given_alphas
  rw [decisionLoop_run spg hwf.1, ebind_ok]
  dsimp only
  rw [(dget_eq_ok_iff _ _ _).mpr (dlookup_decMap spg hwf.1 spg.init_vertex hwf.2.1), ebind_ok,
    hloop, ebind_ok]
  dsimp only
  rw [hts1, ebind_ok, hts2, ebind_ok]

/-- The transformer fails with a plain `KeyError` when some vertex priority
is missing from the alpha map. -/
theorem given_alphas_keyError (spg : StochasticParityGame) (alphas : List (ℕ × ℚ))
    (hwf : SpgWf spg)
    (hmiss : ∃ v ∈ spg.vertices, dlookup alphas v.priority = none) :
    spg_to_ssg_given_alphas spg alphas = .error .keyError := by
  obtain ⟨nv2, ri2, hloop, hA, hwin, hlose, hri⟩ := pipeline_ctx spg hwf
  obtain ⟨ts1, hts1⟩ := copyLoop_ok (addLoseSink (addWinSink (dmerge (decMap spg) nv2))) ri2
    spg.transitions []
    (by
      intro t ht
      obtain ⟨hstart, -, -, -, hmem⟩ := hwf.2.2 t ht
      refine ⟨by rw [hA t.start_vertex hstart]; rfl, ?_⟩
      intro pv hpv
      exact ⟨decVertex pv.2, hA pv.2 (hmem pv hpv).1, hri pv.2 (hmem pv hpv).1⟩)
  have herr := alphaTransLoop_keyError (addLoseSink (addWinSink (dmerge (decMap spg) nv2)))
    (rsvMap spg) ri2 alphas spg.vertices ts1
    (by
      intro v hv
      exact ⟨decVertex v, dlookup_rsvMap spg hwf.1 v hv, hri v hv, hwin, hlose,
        by dsimp only [decVertex]; rw [hA v hv]; rfl⟩)
    hmiss
  unfold spg_to_ssg_given_alphas
  rw [decisionLoop_run spg hwf.1, ebind_ok]
  dsimp only
  rw [(dget_eq_ok_iff _ _ _).mpr (dlookup_decMap spg hwf.1 spg.init_vertex hwf.2.1), ebind_ok,
    hloop, ebind_ok]
  dsimp only
  rw [hts1, ebind_ok, herr, ebind_err]


theorem dmem_false_iff {α β : Type} [DecidableEq α] (d : List (α × β)) (k : α) :
    dmem d k = false ↔ k ∉ d.map (fun kv => kv.1) := by
  rw [← dmem_iff]
  cases dmem d k <;> simp

theorem string_append_left_inj (t : String) (s1 s2 : String)
    (h : s1 ++ t = s2 ++ t) : s1 = s2 := by
  have hd : s1.data ++ t.data = s2.data ++ t.data := congrArg String.data h
  have hlen := congrArg List.length hd
  rw [List.length_append, List.length_append] at hlen
  obtain ⟨h1, -⟩ := List.append_inj hd (by omega)
  cases s1
  cases s2
  simp_all


theorem decMap_keys (spg : StochasticParityGame) :
    (decMap spg).map (fun kv => kv.1) = spg.vertices.map (fun v => v.name) := by
  unfold decMap
  rw [List.map_map]
  rfl

theorem itmMap_keys (spg : StochasticParityGame) :
    (itmMap spg).map (fun kv => kv.1) = spg.vertices.map (fun v => v.name ++ primeMark) := by
  unfold itmMap
  rw [List.map_map]
  rfl

/-- Shape of the output SSG under well-formedness and no collisions: the
vertex dict is decision vertices, then intermediate vertices, then the two
sinks, and the initial vertex is the decision vertex of the SPG's initial
vertex. -/
theorem given_alphas_shape (spg : StochasticParityGame) (alphas : List (ℕ × ℚ))
    (hwf : SpgWf spg) (hnc : NoCollision spg) :
    ∀ ssg, spg_to_ssg_given_alphas spg alphas = .ok ssg →
      ssg.vertices = ((decMap spg ++ itmMap spg) ++ [("v_win", ⟨"v_win", true, true⟩)]) ++
        [("v_lose", ⟨"v_lose", false, false⟩)] ∧
      ssg.init_vertex = decVertex spg.init_vertex := by
  have hnd := hwf.1
  have hprimed_not_name : ∀ v ∈ spg.vertices,
      (v.name ++ primeMark) ∉ spg.vertices.map (fun v => v.name) := by
    intro v hv hmem
    obtain ⟨w, hw, hweq⟩ := List.mem_map.mp hmem
    exact hnc.1 w hw v hv hweq
  have hloop : intermediateLoop (decMap spg) spg.vertices [] [] = .ok (itmMap spg, riMap spg) := by
    have h := intermediateLoop_eq (decMap spg) spg.vertices [] [] hnd
      (fun v hv => by
        rw [dmem_false_iff, decMap_keys]
        exact hprimed_not_name v hv)
      (fun v hv => dlookup_decMap spg hnd v hv)
      (fun v _ => rfl) (fun v _ => rfl)
    simpa [itmMap, riMap] using h
  have hmerge : dmerge (decMap spg) (itmMap spg) = decMap spg ++ itmMap spg := by
    apply dmerge_fresh
    · intro kv hkv
      obtain ⟨w, hw, hweq⟩ := List.mem_map.mp hkv
      rw [dlookup_eq_none_iff, decMap_keys, ← hweq]
      exact hprimed_not_name w hw
    · rw [itmMap_keys, show spg.vertices.map (fun v => v.name ++ primeMark) =
          (spg.vertices.map (fun v => v.name)).map (fun s => s ++ primeMark) by
        rw [List.map_map]
        rfl]
      refine List.Nodup.map ?_ hnd
      intro a b hab
      exact string_append_left_inj primeMark a b hab
  have hwinfree : dlookup (decMap spg ++ itmMap spg) "v_win" = none := by
    rw [dlookup_eq_none_iff, dkeys_append, decMap_keys, itmMap_keys]
    intro hmem
    rcases List.mem_append.mp hmem with h | h
    · obtain ⟨w, hw, hweq⟩ := List.mem_map.mp h
      exact (hnc.2 w hw).1 hweq
    · obtain ⟨w, hw, hweq⟩ := List.mem_map.mp h
      exact append_prime_ne w.name "v_win" 'n' (by decide) (by decide) hweq
  have hwsink : addWinSink (decMap spg ++ itmMap spg) =
      (decMap spg ++ itmMap spg) ++ [("v_win", ⟨"v_win", true, true⟩)] := by
    unfold addWinSink
    rw [if_neg (by rw [dmem, hwinfree]; simp)]
    exact dupdate_of_lookup_none _ _ _ hwinfree
  have hlosefree : dlookup ((decMap spg ++ itmMap spg) ++
      [("v_win", ⟨"v_win", true, true⟩)]) "v_lose" = none := by
    rw [dlookup_eq_none_iff, dkeys_append, dkeys_append, decMap_keys, itmMap_keys]
    intro hmem
    rcases List.mem_append.mp hmem with h | h
    · rcases List.mem_append.mp h with h2 | h2
      · obtain ⟨w, hw, hweq⟩ := List.mem_map.mp h2
        exact (hnc.2 w hw).2 hweq
      · obtain ⟨w, hw, hweq⟩ := List.mem_map.mp h2
        exact append_prime_ne w.name "v_lose" 'e' (by decide) (by decide) hweq
    · simp at h
  have hlsink : addLoseSink ((decMap spg ++ itmMap spg) ++
      [("v_win", ⟨"v_win", true, true⟩)]) =
      ((decMap spg ++ itmMap spg) ++ [("v_win", ⟨"v_win", true, true⟩)]) ++
        [("v_lose", ⟨"v_lose", false, false⟩)] := by
    unfold addLoseSink
    rw [if_neg (by rw [dmem, hlosefree]; simp)]
    exact dupdate_of_lookup_none _ _ _ hlosefree
  intro ssg hssg
  unfold spg_to_ssg_given_alphas at hssg
  rw [decisionLoop_run spg hnd, ebind_ok] at hssg
  dsimp only at hssg
  rw [(dget_eq_ok_iff _ _ _).mpr (dlookup_decMap spg hnd spg.init_vertex hwf.2.1), ebind_ok,
    hloop, ebind_ok] at hssg
  dsimp only at hssg
  rw [hmerge, hwsink, hlsink] at hssg
  obtain ⟨ts1, -, hssg2⟩ := ebind_ok_inv _ _ _ hssg
  obtain ⟨ts2, -, hssg3⟩ := ebind_ok_inv _ _ _ hssg2
  have := Except.ok.inj hssg3
  rw [← this]
  exact ⟨rfl, rfl⟩

end TransformerLemmas

/-! ### Pipeline-level lemmas -/

section PipelineLemmas

/-- Whatever the epsilon argument, a successful run of the alpha derivation
returns a geometric chain keyed exactly by the sorted distinct priorities. -/
theorem compute_alphas_keys (spg : StochasticParityGame) (epsilon : Option ℚ) (maxd : ℕ) :
    ∀ m, compute_alphas_for_spg spg epsilon maxd = .ok m →
      ∃ u0 rest a0 r, usedPriorities spg = u0 :: rest ∧ m = (u0, a0) :: geomFrom r a0 rest := by
  intro m h
  unfold compute_alphas_for_spg at h
  obtain ⟨dm, hdm, h2⟩ := ebind_ok_inv _ _ _ h
  try dsimp only at h2
  obtain ⟨dmin, hdmin, h3⟩ := ebind_ok_inv _ _ _ h2
  have hndup := usedPriorities_nodup spg
  cases husd : usedPriorities spg with
  | nil =>
    rw [husd] at h3
    cases epsilon with
    | none =>
      dsimp only at h3
      exact absurd h3 (by simp)
    | some e =>
      dsimp only at h3
      obtain ⟨a0, ha0, h4⟩ := ebind_ok_inv _ _ _ h3
      obtain ⟨q, hq, h5⟩ := ebind_ok_inv _ _ _ h4
      obtain ⟨rb, hrb, h6⟩ := ebind_ok_inv _ _ _ h5
      try dsimp only at h6
      exact absurd h6 (by simp)
  | cons u0 rest =>
    rw [husd] at h3 hndup
    have hchain : ∀ rb a0 : ℚ,
        alphaChainLoop rb ((u0 :: rest).zip rest) (dupdate [] u0 a0) =
          .ok ((u0, a0) :: geomFrom rb a0 rest) := by
      intro rb a0
      rw [alphaChainLoop_run rb rest (dupdate [] u0 a0) u0 a0
        (dlookup_dupdate_self [] u0 _)
        (fun q2 hq2 => by
          have : u0 ≠ q2 := fun hc => (List.nodup_cons.mp hndup).1 (hc ▸ hq2)
          simp [dupdate, dlookup, this])
        (List.nodup_cons.mp hndup).2]
      simp [dupdate]
    cases epsilon with
    | none =>
      dsimp only at h3
      rw [show (u0 :: rest).tail = rest from rfl, hchain] at h3
      exact ⟨u0, rest, _, _, rfl, (Except.ok.inj h3).symm⟩
    | some e =>
      dsimp only at h3
      obtain ⟨a0, ha0, h4⟩ := ebind_ok_inv _ _ _ h3
      obtain ⟨q, hq, h5⟩ := ebind_ok_inv _ _ _ h4
      obtain ⟨rb, hrb, h6⟩ := ebind_ok_inv _ _ _ h5
      try dsimp only at h6
      rw [show (u0 :: rest).tail = rest from rfl, hchain] at h6
      exact ⟨u0, rest, _, _, rfl, (Except.ok.inj h6).symm⟩

/-- A successful alpha map binds exactly the priorities occurring in the game. -/
theorem compute_alphas_keys_iff (spg : StochasticParityGame) (epsilon : Option ℚ) (maxd : ℕ)
    (m : List (ℕ × ℚ)) (h : compute_alphas_for_spg spg epsilon maxd = .ok m) (p : ℕ) :
    (dlookup m p).isSome = true ↔ p ∈ spg.vertices.map (fun v => v.priority) := by
  obtain ⟨u0, rest, a0, r, husd, hm⟩ := compute_alphas_keys spg epsilon maxd m h
  rw [hm, dlookup_isSome_iff]
  have hkeys : ((u0, a0) :: geomFrom r a0 rest).map (fun kv => kv.1) = u0 :: rest := by
    simp [geomFrom_keys]
  rw [hkeys, ← husd, mem_usedPriorities]
  constructor
  · rintro ⟨v, hv, rfl⟩
    exact List.mem_map_of_mem _ hv
  · intro hmem
    obtain ⟨v, hv, hveq⟩ := List.mem_map.mp hmem
    exact ⟨v, hv, hveq⟩

end PipelineLemmas


/-! ### Claims -/

/-- C6: on every well-formed SPG with at least one transition, the analyzer
returns exactly the true minimum of all occurring probability values (an
attained lower bound, not an approximation), paired with the maximum over
all distinct probability values of the denominator of the value's
`limit_denominator` rounding. -/
theorem claim_C6_analyzer_exact (spg : StochasticParityGame) (maxd : ℕ) (h1 : 1 ≤ maxd)
    (hwf : SpgWf spg) (hne : spg.transitions ≠ []) :
    ∃ mp M, max_denom_and_min_prob spg maxd = .ok (mp, M) ∧
      (∃ t ∈ spg.transitions, ∃ pv ∈ t.end_vertices, pv.1 = mp) ∧
      (∀ t ∈ spg.transitions, ∀ pv ∈ t.end_vertices, mp ≤ pv.1) ∧
      (∀ x ∈ allProbsSet spg, ∀ y, limit_denominator x maxd = .ok y → y.den ≤ M) ∧
      (∃ x ∈ allProbsSet spg, limit_denominator x maxd = .ok (limdenV x maxd) ∧
        (limdenV x maxd).den = M) := by
  obtain ⟨mp, M, hok, hmem, hmin, hden, hdmax⟩ :=
    max_denom_spec spg maxd h1 (allProbsSet_ne_nil spg hwf hne)
  have hld : ∀ x : ℚ, limit_denominator x maxd = .ok (limdenV x maxd) := by
    intro x
    unfold limit_denominator
    rw [if_neg (by omega)]
  refine ⟨mp, M, hok, (mem_allProbsSet spg mp).mp hmem, ?_, ?_, ?_⟩
  · intro t ht pv hpv
    exact hmin pv.1 ((mem_allProbsSet spg pv.1).mpr ⟨t, ht, pv, hpv, rfl⟩)
  · intro x hx y hy
    have : y = limdenV x maxd := by
      rw [hld x] at hy
      exact (Except.ok.inj hy).symm
    rw [this]
    exact hden x hx
  · obtain ⟨x, hx, hxd⟩ := hdmax
    exact ⟨x, hx, hld x, hxd⟩

/-- C6 witness at a concrete game. -/
theorem claim_C6_analyzer_exact_witness :
    ∃ mp M, max_denom_and_min_prob spgW 10000 = .ok (mp, M) ∧
      (∃ t ∈ spgW.transitions, ∃ pv ∈ t.end_vertices, pv.1 = mp) ∧
      (∀ t ∈ spgW.transitions, ∀ pv ∈ t.end_vertices, mp ≤ pv.1) ∧
      (∀ x ∈ allProbsSet spgW, ∀ y, limit_denominator x 10000 = .ok y → y.den ≤ M) ∧
      (∃ x ∈ allProbsSet spgW, limit_denominator x 10000 = .ok (limdenV x 10000) ∧
        (limdenV x 10000).den = M) :=
  claim_C6_analyzer_exact spgW 10000 (by norm_num)
    (of_decide_eq_true (by with_unfolding_all rfl)) (by simp [spgW])

/-- C7 (corrected): on an SPG with no transitions the analyzer fails with
the generic builtin `ValueError` coming from `min` of an empty collection,
not with a dedicated `EmptyGameError`. -/
theorem claim_C7_counterexample :
    spgEmpty.transitions = [] ∧
    max_denom_and_min_prob spgEmpty 10000 = .error .valueError ∧
    PyError.valueError ≠ PyError.emptyGameError :=
  ⟨rfl, by with_unfolding_all rfl, by decide⟩

/-- C7 amended: with no transitions the analyzer raises the generic builtin
`ValueError` (there is no dedicated empty-game error), and with at least one
transition on a well-formed SPG it does not fail at all. -/
theorem claim_C7_empty_game (spg : StochasticParityGame) (maxd : ℕ) (h1 : 1 ≤ maxd) :
    (spg.transitions = [] → max_denom_and_min_prob spg maxd = .error .valueError) ∧
    (SpgWf spg → spg.transitions ≠ [] → ∃ r, max_denom_and_min_prob spg maxd = .ok r) := by
  constructor
  · intro hnil
    unfold max_denom_and_min_prob allProbsSet
    rw [hnil]
    rfl
  · intro hwf hne
    obtain ⟨mp, M, hok, -, -, -, -⟩ :=
      max_denom_spec spg maxd h1 (allProbsSet_ne_nil spg hwf hne)
    exact ⟨(mp, M), hok⟩

/-- C7 witness: the empty-transition game indeed raises `ValueError`. -/
theorem claim_C7_empty_game_witness :
    max_denom_and_min_prob spgEmpty 10000 = .error .valueError :=
  (claim_C7_empty_game spgEmpty 10000 (by norm_num)).1 rfl

theorem get_congr {α : Type} (l l2 : List α) (h : l = l2) (i : ℕ) (hi : i < l.length) :
    l.get ⟨i, hi⟩ = l2.get ⟨i, h ▸ hi⟩ := by
  subst h
  rfl

/-- C1: in sound mode the smallest occurring priority receives
`d^n / (8 * (n!)^2 * M^(2*n^2))` with `d` the minimum probability limited to
the denominator cap, each next distinct priority in sorted order receives
the previous alpha times `((1-d)*d^n) / (D+1)` with `D` the same
denominator, and the alpha of the `i`-th priority in rank order is
`alpha0 * ratio^i`, independent of the numeric gaps between priorities. -/
theorem claim_C1_sound_alphas (spg : StochasticParityGame) (maxd : ℕ) (h1 : 1 ≤ maxd)
    (hwf : SpgWf spg) (hne : spg.transitions ≠ []) :
    ∃ mp M u0 rest m,
      max_denom_and_min_prob spg maxd = .ok (mp, M) ∧
      usedPriorities spg = u0 :: rest ∧
      (∀ p ∈ usedPriorities spg, u0 ≤ p) ∧
      compute_alphas_for_spg spg none maxd = .ok m ∧
      dlookup m u0 = some (soundAlpha0 (limdenV mp maxd) spg.vertices.length M) ∧
      (∀ i (h : i + 1 < (usedPriorities spg).length) (a : ℚ),
        dlookup m ((usedPriorities spg).get ⟨i, by omega⟩) = some a →
        dlookup m ((usedPriorities spg).get ⟨i + 1, h⟩) =
          some (a * soundRatio (limdenV mp maxd) spg.vertices.length M)) ∧
      ∀ i (h : i < (usedPriorities spg).length),
        dlookup m ((usedPriorities spg).get ⟨i, h⟩) =
          some (soundAlpha0 (limdenV mp maxd) spg.vertices.length M *
            soundRatio (limdenV mp maxd) spg.vertices.length M ^ i) := by
  have hvne : spg.vertices ≠ [] := by
    intro hc
    have := hwf.2.1
    rw [hc] at this
    exact absurd this (List.not_mem_nil _)
  obtain ⟨mp, M, hmd, -, -, -, -⟩ :=
    max_denom_spec spg maxd h1 (allProbsSet_ne_nil spg hwf hne)
  obtain ⟨u0, rest, husd⟩ : ∃ u0 rest, usedPriorities spg = u0 :: rest := by
    cases h : usedPriorities spg with
    | nil => exact absurd h (usedPriorities_ne_nil spg hvne)
    | cons u0 rest => exact ⟨u0, rest, rfl⟩
  have hcomp := compute_alphas_none_spec spg maxd h1 mp M hmd u0 rest husd
  have hndup := usedPriorities_nodup spg
  rw [husd] at hndup
  have hclosed : ∀ i (h : i < (usedPriorities spg).length),
      dlookup ((u0, soundAlpha0 (limdenV mp maxd) spg.vertices.length M) ::
          geomFrom (soundRatio (limdenV mp maxd) spg.vertices.length M)
            (soundAlpha0 (limdenV mp maxd) spg.vertices.length M) rest)
        ((usedPriorities spg).get ⟨i, h⟩) =
        some (soundAlpha0 (limdenV mp maxd) spg.vertices.length M *
          soundRatio (limdenV mp maxd) spg.vertices.length M ^ i) := by
    intro i h
    rw [get_congr (usedPriorities spg) (u0 :: rest) husd i h]
    exact geom_lookup _ rest u0 _ hndup i (husd ▸ h)
  refine ⟨mp, M, u0, rest, _, hmd, husd, usedPriorities_head_min spg u0 rest husd,
    hcomp, by simp [dlookup], ?_, hclosed⟩
  intro i h a ha
  have hi : i < (usedPriorities spg).length := by omega
  have h0 := hclosed i hi
  rw [ha] at h0
  have haeq : a = soundAlpha0 (limdenV mp maxd) spg.vertices.length M *
      soundRatio (limdenV mp maxd) spg.vertices.length M ^ i := Option.some.inj h0
  rw [hclosed (i + 1) h, haeq]
  congr 1
  ring

/-- C1 witness at a concrete game. -/
theorem claim_C1_sound_alphas_witness :
    ∃ mp M u0 rest m,
      max_denom_and_min_prob spgW 10000 = .ok (mp, M) ∧
      usedPriorities spgW = u0 :: rest ∧
      (∀ p ∈ usedPriorities spgW, u0 ≤ p) ∧
      compute_alphas_for_spg spgW none 10000 = .ok m ∧
      dlookup m u0 = some (soundAlpha0 (limdenV mp 10000) spgW.vertices.length M) ∧
      (∀ i (h : i + 1 < (usedPriorities spgW).length) (a : ℚ),
        dlookup m ((usedPriorities spgW).get ⟨i, by omega⟩) = some a →
        dlookup m ((usedPriorities spgW).get ⟨i + 1, h⟩) =
          some (a * soundRatio (limdenV mp 10000) spgW.vertices.length M)) ∧
      ∀ i (h : i < (usedPriorities spgW).length),
        dlookup m ((usedPriorities spgW).get ⟨i, h⟩) =
          some (soundAlpha0 (limdenV mp 10000) spgW.vertices.length M *
            soundRatio (limdenV mp 10000) spgW.vertices.length M ^ i) :=
  claim_C1_sound_alphas spgW 10000 (by norm_num)
    (of_decide_eq_true (by with_unfolding_all rfl)) (by simp [spgW])

/-- C2 (corrected): with the admissible epsilon `39/10 ∈ (0,4)` and minimum
probability `1/2 ∈ (0,1)` the produced alpha is `39/8`, which does not lie
in `(0,1)`. -/
theorem claim_C2_counterexample :
    SpgWf spgC3 ∧ spgC3.transitions ≠ [] ∧
    (0 : ℚ) < 39/10 ∧ (39 : ℚ)/10 < 4 ∧
    max_denom_and_min_prob spgC3 10000 = .ok (1/2, 2) ∧
    limdenV (1/2) 10000 = 1/2 ∧ (0 : ℚ) < 1/2 ∧ (1 : ℚ)/2 < 1 ∧
    compute_alphas_for_spg spgC3 (some (39/10)) 10000 = .ok [(0, 39/8)] ∧
    ¬ ((39 : ℚ)/8 < 1) :=
  ⟨of_decide_eq_true (by with_unfolding_all rfl), by simp [spgC3], by norm_num, by norm_num,
    by with_unfolding_all rfl, by with_unfolding_all rfl, by norm_num, by norm_num,
    by with_unfolding_all rfl, by norm_num⟩

/-- C2 amended: whenever the limited minimum probability `d` satisfies
`0 < d < 1`, every produced alpha lies strictly in `(0,1)` and the alphas
strictly decrease in rank order, in sound mode unconditionally, and in
epsilon mode for `0 < e < 4` provided additionally `e * d^n < 2*(4-e)`
(equivalently `alpha(p0) < 1`), which the counterexample shows is needed. -/
theorem claim_C2_alpha_range (spg : StochasticParityGame) (maxd : ℕ) (h1 : 1 ≤ maxd)
    (hwf : SpgWf spg) (hne : spg.transitions ≠ []) (epsilon : Option ℚ)
    (mp : ℚ) (M : ℕ) (hmd : max_denom_and_min_prob spg maxd = .ok (mp, M))
    (hd0 : 0 < limdenV mp maxd) (hd1 : limdenV mp maxd < 1)
    (heps : match epsilon with
      | none => True
      | some e => 0 < e ∧ e < 4 ∧
          e * limdenV mp maxd ^ spg.vertices.length < 2 * (4 - e)) :
    ∀ m, compute_alphas_for_spg spg epsilon maxd = .ok m →
      (∀ p a, dlookup m p = some a → 0 < a ∧ a < 1) ∧
      ∀ i (h : i + 1 < (usedPriorities spg).length) (a b : ℚ),
        dlookup m ((usedPriorities spg).get ⟨i, by omega⟩) = some a →
        dlookup m ((usedPriorities spg).get ⟨i + 1, h⟩) = some b → b < a := by
  intro m hm
  have hvne : spg.vertices ≠ [] := by
    intro hc
    have := hwf.2.1
    rw [hc] at this
    exact absurd this (List.not_mem_nil _)
  have hn1 : 1 ≤ spg.vertices.length := by
    cases h : spg.vertices with
    | nil => exact absurd h hvne
    | cons v vs => simp [h]
  have hM1 : 1 ≤ M := by
    obtain ⟨mp2, M2, hmd2, -, -, -, x, -, hx⟩ :=
      max_denom_spec spg maxd h1 (allProbsSet_ne_nil spg hwf hne)
    rw [hmd] at hmd2
    have h2 := Except.ok.inj hmd2
    have hM2 : M2 = M := (congrArg Prod.snd h2).symm
    rw [← hM2, ← hx]
    exact (limdenV x maxd).pos
  obtain ⟨u0, rest, husd⟩ : ∃ u0 rest, usedPriorities spg = u0 :: rest := by
    cases h : usedPriorities spg with
    | nil => exact absurd h (usedPriorities_ne_nil spg hvne)
    | cons u0 rest => exact ⟨u0, rest, rfl⟩
  have hndup := usedPriorities_nodup spg
  rw [husd] at hndup
  set d := limdenV mp maxd with hdd
  set n := spg.vertices.length with hnn
  have hdn_pos : 0 < d ^ n := pow_pos hd0 n
  have hdn_lt1 : d ^ n < 1 := pow_lt_one₀ (le_of_lt hd0) hd1 (by omega)
  have key : ∀ (A R : ℚ), 0 < A → A < 1 → 0 < R → R < 1 →
      m = (u0, A) :: geomFrom R A rest →
      (∀ p a, dlookup m p = some a → 0 < a ∧ a < 1) ∧
      ∀ i (h : i + 1 < (usedPriorities spg).length) (a b : ℚ),
        dlookup m ((usedPriorities spg).get ⟨i, by omega⟩) = some a →
        dlookup m ((usedPriorities spg).get ⟨i + 1, h⟩) = some b → b < a := by
    intro A R hA0 hA1 hR0 hR1 hmeq
    have hval : ∀ i (h : i < (usedPriorities spg).length),
        dlookup m ((usedPriorities spg).get ⟨i, h⟩) = some (A * R ^ i) := by
      intro i h
      rw [hmeq, get_congr (usedPriorities spg) (u0 :: rest) husd i h]
      exact geom_lookup R rest u0 A hndup i (husd ▸ h)
    constructor
    · intro p a hpa
      rw [hmeq] at hpa
      obtain ⟨i, hi, -, haeq⟩ := geom_lookup_inv R rest u0 A p a hpa
      rw [haeq]
      constructor
      · exact mul_pos hA0 (pow_pos hR0 i)
      · calc A * R ^ i ≤ A * 1 :=
              mul_le_mul_of_nonneg_left (pow_le_one₀ (le_of_lt hR0) (le_of_lt hR1))
                (le_of_lt hA0)
          _ = A := mul_one A
          _ < 1 := hA1
    · intro i h a b ha hb
      have hi : i < (usedPriorities spg).length := by omega
      rw [hval i hi] at ha
      rw [hval (i + 1) h] at hb
      rw [← Option.some.inj ha, ← Option.some.inj hb]
      have : A * R ^ (i + 1) = A * R ^ i * R := by ring
      rw [this]
      calc A * R ^ i * R < A * R ^ i * 1 := by
            exact mul_lt_mul_of_pos_left hR1 (mul_pos hA0 (pow_pos hR0 i))
        _ = A * R ^ i := mul_one _
  cases epsilon with
  | none =>
    have hcomp := compute_alphas_none_spec spg maxd h1 mp M hmd u0 rest husd
    rw [hm] at hcomp
    have hmeq := Except.ok.inj hcomp
    have hD : (8 : ℚ) ≤ soundDenominator n M := by
      unfold soundDenominator
      have hfac : (1 : ℚ) ≤ (Nat.factorial n : ℚ) := by
        exact_mod_cast Nat.one_le_iff_ne_zero.mpr (Nat.factorial_ne_zero n)
      have hMq : (1 : ℚ) ≤ (M : ℚ) ^ (2 * n * n) := one_le_pow₀ (by exact_mod_cast hM1)
      nlinarith
    have hDpos : (0 : ℚ) < soundDenominator n M := by linarith
    refine key (soundAlpha0 d n M) (soundRatio d n M) ?_ ?_ ?_ ?_ hmeq
    · exact div_pos hdn_pos hDpos
    · rw [soundAlpha0, div_lt_one hDpos]
      linarith
    · exact div_pos (mul_pos (by linarith) hdn_pos) (by linarith)
    · rw [soundRatio, div_lt_one (by linarith)]
      nlinarith
  | some e =>
    obtain ⟨he0, he4, hesmall⟩ := heps
    have hcomp := compute_alphas_some_spec spg maxd h1 mp M hmd u0 rest husd e he0 he4
    rw [hm] at hcomp
    have hmeq := Except.ok.inj hcomp
    have hq : (0 : ℚ) < 8 * (4 - e) / (4 * e) := div_pos (by nlinarith) (by nlinarith)
    refine key (epsAlpha0 d n e) (epsRatio d n e) ?_ ?_ ?_ ?_ hmeq
    · exact div_pos (by nlinarith) (by nlinarith)
    · rw [epsAlpha0, div_lt_one (by nlinarith)]
      nlinarith
    · exact div_pos (by nlinarith) (by nlinarith)
    · rw [epsRatio, div_lt_one (by nlinarith)]
      nlinarith

/-- C2 witness: sound mode and a small epsilon at a concrete game. -/
theorem claim_C2_alpha_range_witness :
    (∀ p a, dlookup [((0 : ℕ), (1 : ℚ)/32768), (1, 1/2147745792)] p = some a →
      0 < a ∧ a < 1) ∧
    ∀ i (h : i + 1 < (usedPriorities spgW).length) (a b : ℚ),
      dlookup [((0 : ℕ), (1 : ℚ)/32768), (1, 1/2147745792)]
        ((usedPriorities spgW).get ⟨i, by omega⟩) = some a →
      dlookup [((0 : ℕ), (1 : ℚ)/32768), (1, 1/2147745792)]
        ((usedPriorities spgW).get ⟨i + 1, h⟩) = some b → b < a :=
  claim_C2_alpha_range spgW 10000 (by norm_num)
    (of_decide_eq_true (by with_unfolding_all rfl)) (by simp [spgW]) none
    (1/2) 2 (by with_unfolding_all rfl)
    (by with_unfolding_all decide)
    (by with_unfolding_all decide)
    trivial
    [((0 : ℕ), (1 : ℚ)/32768), (1, 1/2147745792)]
    (by with_unfolding_all rfl)

theorem epsMono (d : ℚ) (n : ℕ) (e1 e2 : ℚ) (hd0 : 0 ≤ d) (hd1 : d ≤ 1)
    (he1 : 0 < e1) (he12 : e1 < e2) (he2 : e2 < 4) :
    0 ≤ epsAlpha0 d n e1 ∧ epsAlpha0 d n e1 ≤ epsAlpha0 d n e2 ∧
      0 ≤ epsRatio d n e1 ∧ epsRatio d n e1 ≤ epsRatio d n e2 := by
  have hdn0 : (0 : ℚ) ≤ d ^ n := pow_nonneg hd0 n
  have hN0 : (0 : ℚ) ≤ (1 - d) * d ^ n := mul_nonneg (by linarith) hdn0
  have h4e1 : (0 : ℚ) < 4 - e1 := by linarith
  have h4e2 : (0 : ℚ) < 4 - e2 := by linarith
  have he2pos : (0 : ℚ) < e2 := lt_trans he1 he12
  have hkey : e1 * (4 - e2) ≤ e2 * (4 - e1) := by nlinarith
  have hq1 : (0 : ℚ) < 8 * (4 - e1) / (4 * e1) + 1 := by
    have := div_pos (show (0:ℚ) < 8 * (4 - e1) by nlinarith)
      (show (0:ℚ) < 4 * e1 by nlinarith)
    linarith
  have hq2 : (0 : ℚ) < 8 * (4 - e2) / (4 * e2) + 1 := by
    have := div_pos (show (0:ℚ) < 8 * (4 - e2) by nlinarith)
      (show (0:ℚ) < 4 * e2 by nlinarith)
    linarith
  refine ⟨?_, ?_, ?_, ?_⟩
  · exact div_nonneg (by nlinarith) (by nlinarith)
  · unfold epsAlpha0
    rw [div_le_div_iff₀ (by nlinarith) (by nlinarith)]
    nlinarith [mul_le_mul_of_nonneg_left hkey hdn0]
  · exact div_nonneg hN0 (le_of_lt hq1)
  · unfold epsRatio
    have hq21 : 8 * (4 - e2) / (4 * e2) + 1 ≤ 8 * (4 - e1) / (4 * e1) + 1 := by
      have hdd2 : 8 * (4 - e2) / (4 * e2) ≤ 8 * (4 - e1) / (4 * e1) := by
        rw [div_le_div_iff₀ (by nlinarith) (by nlinarith)]
        nlinarith
      linarith
    exact div_le_div_of_nonneg_left hN0 hq2 hq21

/-- C9: epsilon-mode alphas are monotonically non-decreasing in epsilon,
priority by priority, for `0 < e1 < e2 < 4` on a well-formed SPG with at
least one transition. -/
theorem claim_C9_eps_monotone (spg : StochasticParityGame) (maxd : ℕ) (h1 : 1 ≤ maxd)
    (hwf : SpgWf spg) (hne : spg.transitions ≠ [])
    (e1 e2 : ℚ) (he1 : 0 < e1) (he12 : e1 < e2) (he2 : e2 < 4) :
    ∀ m1 m2, compute_alphas_for_spg spg (some e1) maxd = .ok m1 →
      compute_alphas_for_spg spg (some e2) maxd = .ok m2 →
      ∀ p ∈ spg.vertices.map (fun v => v.priority),
        ∃ a1 a2, dlookup m1 p = some a1 ∧ dlookup m2 p = some a2 ∧ a1 ≤ a2 := by
  intro m1 m2 hm1 hm2 p hp
  have hvne : spg.vertices ≠ [] := by
    intro hc
    have := hwf.2.1
    rw [hc] at this
    exact absurd this (List.not_mem_nil _)
  obtain ⟨mp, M, hmd, hmpmem, -, -, -⟩ :=
    max_denom_spec spg maxd h1 (allProbsSet_ne_nil spg hwf hne)
  obtain ⟨hmp0, hmp1⟩ := allProbsSet_pos spg hwf mp hmpmem
  obtain ⟨hd0, hd1⟩ := limdenV_range mp maxd h1 (le_of_lt hmp0) hmp1
  obtain ⟨u0, rest, husd⟩ : ∃ u0 rest, usedPriorities spg = u0 :: rest := by
    cases h : usedPriorities spg with
    | nil => exact absurd h (usedPriorities_ne_nil spg hvne)
    | cons u0 rest => exact ⟨u0, rest, rfl⟩
  have hndup := usedPriorities_nodup spg
  rw [husd] at hndup
  have hc1 := compute_alphas_some_spec spg maxd h1 mp M hmd u0 rest husd e1 he1
    (lt_trans he12 he2)
  have hc2 := compute_alphas_some_spec spg maxd h1 mp M hmd u0 rest husd e2
    (lt_trans he1 he12) he2
  rw [hm1] at hc1
  rw [hm2] at hc2
  have hm1eq := Except.ok.inj hc1
  have hm2eq := Except.ok.inj hc2
  set d := limdenV mp maxd with hdd
  set n := spg.vertices.length with hnn
  obtain ⟨hA1nn, hA12, hR1nn, hR12⟩ := epsMono d n e1 e2 hd0 hd1 he1 he12 he2
  have hp2 : p ∈ usedPriorities spg := by
    obtain ⟨v, hv, hveq⟩ := List.mem_map.mp hp
    exact (mem_usedPriorities spg p).mpr ⟨v, hv, hveq⟩
  rw [husd] at hp2
  obtain ⟨⟨i, hi⟩, hget⟩ := List.mem_iff_get.mp hp2
  refine ⟨epsAlpha0 d n e1 * epsRatio d n e1 ^ i,
    epsAlpha0 d n e2 * epsRatio d n e2 ^ i, ?_, ?_, ?_⟩
  · rw [hm1eq, ← hget]
    exact geom_lookup _ rest u0 _ hndup i hi
  · rw [hm2eq, ← hget]
    exact geom_lookup _ rest u0 _ hndup i hi
  · exact mul_le_mul hA12 (pow_le_pow_left₀ hR1nn hR12 i) (pow_nonneg hR1nn i)
      (le_trans hA1nn hA12)

/-- C9 witness at a concrete game with epsilons 1 and 2. -/
theorem claim_C9_eps_monotone_witness :
    ∃ a1 a2, dlookup [((0 : ℕ), (1 : ℚ)/24), (1, 1/1344)] 0 = some a1 ∧
      dlookup [((0 : ℕ), (1 : ℚ)/8), (1, 1/192)] 0 = some a2 ∧ a1 ≤ a2 :=
  claim_C9_eps_monotone spgW 10000 (by norm_num)
    (of_decide_eq_true (by with_unfolding_all rfl)) (by simp [spgW])
    1 2 (by norm_num) (by norm_num) (by norm_num)
    [((0 : ℕ), (1 : ℚ)/24), (1, 1/1344)] [((0 : ℕ), (1 : ℚ)/8), (1, 1/192)]
    (by with_unfolding_all rfl) (by with_unfolding_all rfl)
    0 (by simp [spgW])

/-- C10: the key set of a successful alpha derivation is exactly the set of
distinct priorities of the SPG's vertices; consequently, inside the
end-to-end pipeline every alpha lookup succeeds and the whole transformation
returns a game, so the missing-priority failure branch is unreachable. -/
theorem claim_C10_alpha_lookups_safe (spg : StochasticParityGame) (hwf : SpgWf spg)
    (hne : spg.transitions ≠ []) (epsilon : Option ℚ) :
    (∀ (maxd : ℕ) m, compute_alphas_for_spg spg epsilon maxd = .ok m →
      ∀ p, (dlookup m p).isSome = true ↔ p ∈ spg.vertices.map (fun v => v.priority)) ∧
    ∀ m, compute_alphas_for_spg spg epsilon 10000 = .ok m →
      ∃ ssg, spg_to_ssg spg epsilon = .ok ssg := by
  constructor
  · intro maxd m hm p
    exact compute_alphas_keys_iff spg epsilon maxd m hm p
  · intro m hm
    have hcov : ∀ v ∈ spg.vertices, (dlookup m v.priority).isSome = true := by
      intro v hv
      rw [compute_alphas_keys_iff spg epsilon 10000 m hm v.priority]
      exact List.mem_map_of_mem _ hv
    obtain ⟨ssg, hssg⟩ := given_alphas_ok spg m hwf hcov
    refine ⟨ssg, ?_⟩
    unfold spg_to_ssg
    rw [hm, ebind_ok]
    exact hssg

/-- C10 witness at a concrete game. -/
theorem claim_C10_alpha_lookups_safe_witness :
    ((dlookup [((0 : ℕ), (1 : ℚ)/32768), (1, 1/2147745792)] 1).isSome = true ↔
      (1 : ℕ) ∈ spgW.vertices.map (fun v => v.priority)) ∧
    ∃ ssg, spg_to_ssg spgW none = .ok ssg :=
  ⟨(claim_C10_alpha_lookups_safe spgW (of_decide_eq_true (by with_unfolding_all rfl))
      (by simp [spgW]) none).1 10000
      [((0 : ℕ), (1 : ℚ)/32768), (1, 1/2147745792)] (by with_unfolding_all rfl) 1,
    (claim_C10_alpha_lookups_safe spgW (of_decide_eq_true (by with_unfolding_all rfl))
      (by simp [spgW]) none).2
      [((0 : ℕ), (1 : ℚ)/32768), (1, 1/2147745792)] (by with_unfolding_all rfl)⟩

/-- C5: for collision-free well-formed SPG inputs, the produced SSG has
exactly `2 * |vertices| + 2` vertices and its initial vertex is the decision
vertex of the SPG's initial vertex. -/
theorem claim_C5_structural_size (spg : StochasticParityGame) (hwf : SpgWf spg)
    (hnc : NoCollision spg) (epsilon : Option ℚ) :
    ∀ ssg, spg_to_ssg spg epsilon = .ok ssg →
      ssg.vertices.length = 2 * spg.vertices.length + 2 ∧
      ssg.init_vertex = decVertex spg.init_vertex := by
  intro ssg h
  unfold spg_to_ssg at h
  obtain ⟨alphas, -, h2⟩ := ebind_ok_inv _ _ _ h
  obtain ⟨hverts, hinit⟩ := given_alphas_shape spg alphas hwf hnc ssg h2
  refine ⟨?_, hinit⟩
  rw [hverts]
  simp only [List.length_append, List.length_cons, List.length_nil, decMap, itmMap,
    List.length_map]
  ring

/-- C5 witness at a concrete game. -/
theorem claim_C5_structural_size_witness :
    ∃ ssg, spg_to_ssg spgW none = .ok ssg ∧
      ssg.vertices.length = 2 * spgW.vertices.length + 2 ∧
      ssg.init_vertex = decVertex spgW.init_vertex := by
  obtain ⟨ssg, hssg⟩ : ∃ ssg, spg_to_ssg spgW none = .ok ssg := by
    have hok : (spg_to_ssg spgW none).isOk = true := by with_unfolding_all rfl
    cases h : spg_to_ssg spgW none with
    | ok s => exact ⟨s, rfl⟩
    | error e =>
      rw [h] at hok
      cases hok
  exact ⟨ssg, hssg, claim_C5_structural_size spgW
    (of_decide_eq_true (by with_unfolding_all rfl))
    (of_decide_eq_true (by with_unfolding_all rfl)) none ssg hssg⟩

/-- C8 (corrected): a missing priority makes the transformer fail with the
generic `KeyError` lookup failure, not a dedicated `MissingAlphaError`. -/
theorem claim_C8_counterexample :
    SpgWf spgW ∧
    (∃ v ∈ spgW.vertices, dlookup [((0 : ℕ), (1 : ℚ)/2)] v.priority = none) ∧
    spg_to_ssg_given_alphas spgW [((0 : ℕ), (1 : ℚ)/2)] = .error .keyError ∧
    PyError.keyError ≠ PyError.missingAlphaError :=
  ⟨of_decide_eq_true (by with_unfolding_all rfl),
    of_decide_eq_true (by with_unfolding_all rfl),
    by with_unfolding_all rfl, by decide⟩

/-- C8 amended: on a well-formed SPG, the graph transformer succeeds in
building all transitions whenever the alpha map covers every occurring
priority, and fails with the builtin `KeyError` (no dedicated
`MissingAlphaError` exists) whenever some vertex's priority is absent. -/
theorem claim_C8_missing_alpha (spg : StochasticParityGame) (alphas : List (ℕ × ℚ))
    (hwf : SpgWf spg) :
    ((∀ v ∈ spg.vertices, (dlookup alphas v.priority).isSome = true) →
      ∃ ssg, spg_to_ssg_given_alphas spg alphas = .ok ssg) ∧
    ((∃ v ∈ spg.vertices, dlookup alphas v.priority = none) →
      spg_to_ssg_given_alphas spg alphas = .error .keyError) :=
  ⟨given_alphas_ok spg alphas hwf, given_alphas_keyError spg alphas hwf⟩

/-- C8 witness: with a covering alpha map the transformer succeeds. -/
theorem claim_C8_missing_alpha_witness :
    ∃ ssg, spg_to_ssg_given_alphas spgW [((0 : ℕ), (1 : ℚ)/2), (1, 1/4)] = .ok ssg :=
  (claim_C8_missing_alpha spgW [((0 : ℕ), (1 : ℚ)/2), (1, 1/4)]
    (of_decide_eq_true (by with_unfolding_all rfl))).1
    (of_decide_eq_true (by with_unfolding_all rfl))


theorem checkC3_spec (r : Except PyError SimpleStochasticGame) (h : checkC3 r = true) :
    ∃ ssg, r = .ok ssg ∧
      dlookup ssg.vertices "v_win0" = some ⟨"v_win0", true, true⟩ ∧
      ∀ kv ∈ ssg.transitions, kv.1.2 = "alpha" →
        ∀ pv ∈ kv.2.end_vertices, pv.2.is_target = false := by
  cases r with
  | error e => exact absurd h (by simp [checkC3])
  | ok ssg =>
    simp only [checkC3, Bool.and_eq_true, beq_iff_eq, List.all_eq_true] at h
    obtain ⟨h1, h2⟩ := h
    refine ⟨ssg, rfl, h1, ?_⟩
    intro kv hkv hact pv hpv
    have h3 := h2 kv hkv
    rw [Bool.or_eq_true] at h3
    rcases h3 with hc | hc
    · exact absurd hact (bne_iff_ne.mp hc)
    · have := List.all_eq_true.mp hc pv hpv
      simpa using this

/-- C3 (code bug): on a game whose sinks must be disambiguated (a vertex is
already named `"v_win"`), the synthetic `"alpha"` transitions of even
priority vertices do not reach the WIN sink at all: the disambiguated sink
`"v_win0"` is created but every alpha-branch points at the non-target
decision vertex looked up under the fixed key `"v_win"`. -/
theorem claim_C3_win_branch_bug :
    SpgWf spgC3 ∧ (∀ v ∈ spgC3.vertices, v.priority % 2 = 0) ∧
    ∃ ssg, spg_to_ssg spgC3 none = .ok ssg ∧
      dlookup ssg.vertices "v_win0" = some ⟨"v_win0", true, true⟩ ∧
      ∀ kv ∈ ssg.transitions, kv.1.2 = "alpha" →
        ∀ pv ∈ kv.2.end_vertices, pv.2.is_target = false :=
  ⟨of_decide_eq_true (by with_unfolding_all rfl),
    of_decide_eq_true (by with_unfolding_all rfl),
    checkC3_spec _ (by with_unfolding_all rfl)⟩


theorem checkC4_spec (r : Except PyError SimpleStochasticGame) (h : checkC4 r = true) :
    ∃ ssg, r = .ok ssg ∧ ∃ kv ∈ ssg.transitions,
      (kv.2.end_vertices.map fun pv => pv.1).sum = 1/2 := by
  cases r with
  | error e => exact absurd h (by simp [checkC4])
  | ok ssg =>
    simp only [checkC4, List.any_eq_true, beq_iff_eq] at h
    exact ⟨ssg, rfl, h⟩

/-- C4 (code bug): on the same disambiguated game, with the admissible
epsilon `16/5` the alpha becomes exactly `1/2`, the two branches of the
synthetic transition collapse into one element of the Python set literal,
and the resulting distribution sums to `1/2` rather than `1` even though
every input distribution sums to `1`. -/
theorem claim_C4_probability_sum_bug :
    SpgWf spgC3 ∧
    (∀ t ∈ spgC3.transitions, (t.end_vertices.map (fun pv => pv.1)).sum = 1) ∧
    (0 : ℚ) < 16/5 ∧ (16 : ℚ)/5 < 4 ∧
    ∃ ssg, spg_to_ssg spgC3 (some (16/5)) = .ok ssg ∧
      ∃ kv ∈ ssg.transitions,
        (kv.2.end_vertices.map fun pv => pv.1).sum = 1/2 :=
  ⟨of_decide_eq_true (by with_unfolding_all rfl),
    of_decide_eq_true (by with_unfolding_all rfl),
    by norm_num, by norm_num,
    checkC4_spec _ (by with_unfolding_all rfl)⟩

end SpgReduction
